import Mathlib

/-!
# A verification model of the OpenType/TrueType font subsetter

This file gives a shallow embedding of `src/font/subset.rs` — the font
subsetter — and proves properties of it.

Modelling conventions:
* Byte buffers (`Vec<u8>`, `&[u8]`) are `List Nat`; the big-endian writers
  `write_u16`/`write_u32`/`write_i16` truncate exactly like the `as u16` /
  `as u32` casts do, via `% 2^16` / `% 2^32` in the serializers.
* The external `opentype` reader crate is an interface the subsetter consumes;
  its structured views are fields of `FontModel` (the character map as a
  function, the `glyf` composite lists and `loca` offsets as finite lists,
  matching the finite tables of a real font file).
* Fallible code returns `Except FontError`; `io::Error` from the in-memory
  cursors is the `FontError.Io` case.
* Loop cursors (`i` in `find_glyphs`, positions in the `glyf` component loop)
  are `Nat`.  The source's work-list loop compares a `u16` cursor against
  `self.glyphs.len() as u16`, which agrees with the `Nat` cursor exactly
  while the glyph vector stays below `2 ^ 16` entries.  Because `chars` is
  unbounded, that is not automatic, so the glyph-closure theorem carries the
  hypothesis `1 + chars.length + (compsUniverse glyf).card < 2 ^ 16`: the
  final vector is the `1 + chars.length` seed plus pairwise-distinct members
  of `compsUniverse`, every intermediate vector is a prefix of the final
  one, and the theorem proves the final length below `2 ^ 16`, so under the
  hypothesis every `len as u16` cast the source performs is the identity and
  its `u16` cursor never wraps.
-/

namespace FontSubset

/-! ## Byte-level primitives -/

/-- Big-endian serialization of a `u16`, truncating like `as u16`. -/
def writeU16 (n : Nat) : List Nat := [n / 256 % 256, n % 256]

/-- Big-endian serialization of a `u32`, truncating like `as u32`. -/
def writeU32 (n : Nat) : List Nat :=
  [n / 2 ^ 24 % 256, n / 2 ^ 16 % 256, n / 2 ^ 8 % 256, n % 256]

/-- Big-endian serialization of an `i16` (two's complement). -/
def writeI16 (z : Int) : List Nat := writeU16 (z % 65536).toNat

/-- Read a big-endian `u16` at position `p`; `none` models the
`UnexpectedEof` error of a cursor read past the end. -/
def readU16 (data : List Nat) (p : Nat) : Option Nat :=
  match data.get? p, data.get? (p + 1) with
  | some a, some b => some (a * 256 + b)
  | _, _ => none

/-- Overwrite the big-endian `u16` at position `p` (seek back two bytes and
`write_u16`), truncating the value like `as u16`. -/
def setU16 (data : List Nat) (p : Nat) (v : Nat) : List Nat :=
  (data.set p (v / 256 % 256)).set (p + 1) (v % 256)

/-! ## Errors and data model -/

/-- The `FontError` from `src/font/mod.rs`, restricted to the cases the subsetter
produces.  String-ish payloads that name a table tag are kept as the tag's
byte list. -/
inductive FontError where
  | UnsupportedFont (msg : String)
  | UnsupportedTable (tag : List Nat)
  | MissingTable (tag : List Nat)
  | MissingCharacter (c : Nat)
  | InvalidFont (msg : String)
  | Io
  deriving DecidableEq, Repr

/-- Outline flavor reported by the reader. -/
inductive Outlines where
  | TrueType
  | CFF
  deriving DecidableEq, Repr

/-- The `opentype::TableRecord`: tag (4 bytes), checksum, offset, length. -/
structure TableRec where
  tag : List Nat
  check_sum : Nat
  offset : Nat
  length : Nat
  deriving DecidableEq, Repr

/-- One entry of the structured `glyf` view: the composite glyph ids it
references (`glyph.composites` in the reader's interface). -/
structure GlyphEntry where
  composites : List Nat
  deriving DecidableEq, Repr

/-- The input font together with the structured views the reader produces
from it.  `glyf` and `loca` are finite tables indexed by glyph id; `charMap`
is `CharMap::get`; `hmtx` is `HorizontalMetrics::get`. -/
structure FontModel where
  program : List Nat
  tables : List TableRec
  outlines : Outlines
  defaultGlyph : Nat
  widths : List Nat
  charMap : Nat → Option Nat
  glyf : List GlyphEntry
  loca : List Nat
  indexToLocFormat : Nat
  hmtx : Nat → Option (Nat × Int)

/-- The mutable output half of the `Subsetter` struct: accumulated table
records and the body bytes. -/
structure SubState where
  records : List TableRec
  body : List Nat
  deriving DecidableEq, Repr

/-- The subsetted font returned by `run` (the opaque `name`/`metrics`/
`default_glyph` fields carried through unchanged are omitted). -/
structure OutFont where
  mapping : Nat → Option Nat
  widths : List Nat
  program : List Nat

/-- The `Locations::offset(g)`: the `loca` table's offset for glyph `g`
(accepting one-past-the-last for the sentinel). -/
def locaOffset (loca : List Nat) (g : Nat) : Option Nat := loca.get? g

/-- The `Locations::length(g)`: byte length of glyph `g` in `glyf`, the
difference of two consecutive `loca` offsets. -/
def locaLength (loca : List Nat) (g : Nat) : Option Nat :=
  match loca.get? g, loca.get? (g + 1) with
  | some a, some b => some (b - a)
  | _, _ => none

/-! ## Checksums (`calculate_check_sum`) -/

/-- The `chunks_exact(4)` folding loop of `calculate_check_sum`: add the
big-endian `u32` of each complete 4-byte chunk with wrap-around; a trailing
remainder of 1–3 bytes is ignored. -/
def checkSumLoop (sum : Nat) : List Nat → Nat
  | b0 :: b1 :: b2 :: b3 :: rest =>
      checkSumLoop ((sum + (b0 * 2 ^ 24 + b1 * 2 ^ 16 + b2 * 2 ^ 8 + b3)) % 2 ^ 32) rest
  | _ => sum

/-- The `calculate_check_sum` from `subset.rs`. -/
def calculate_check_sum (data : List Nat) : Nat := checkSumLoop 0 data

/-! ## Glyph closure (`find_glyphs`) -/

/-- The inner `for` over one glyph's composites: push each composite glyph id
only if it occurs nowhere in the current vector (the source iterates the
vector reversed, which does not change the result of `all`). -/
def addComps (gs : List Nat) (cs : List Nat) : List Nat :=
  cs.foldl (fun acc c => if acc.all (fun x => x ≠ c) then acc ++ [c] else acc) gs

/-- All composite glyph ids mentioned anywhere in the `glyf` table; used as
the termination measure of the work-list loop. -/
def compsUniverse (t : List GlyphEntry) : Finset Nat :=
  (t.flatMap (fun e => e.composites)).toFinset

theorem addComps_append (gs cs : List Nat) : ∃ d, addComps gs cs = gs ++ d := by
  induction cs generalizing gs with
  | nil => exact ⟨[], by simp [addComps]⟩
  | cons c cs ih =>
    simp only [addComps, List.foldl_cons] at *
    by_cases h : gs.all (fun x => x ≠ c)
    · simp only [h, if_pos]
      obtain ⟨d, hd⟩ := ih (gs ++ [c])
      exact ⟨c :: d, by simpa using hd⟩
    · simp only [h, if_neg]
      exact ih gs

/-- Everything the composite pass appends is a fresh composite: it comes from
`cs` and did not occur in `gs`. -/
theorem addComps_fresh (gs cs d : List Nat) (h : addComps gs cs = gs ++ d) :
    ∀ x ∈ d, x ∈ cs ∧ x ∉ gs := by
  induction cs generalizing gs d with
  | nil =>
    simp only [addComps, List.foldl_nil] at h
    have hlen : gs.length = gs.length + d.length := by
      simpa using congrArg List.length h
    have : d = [] := List.eq_nil_of_length_eq_zero (by omega)
    subst this
    simp
  | cons c cs ih =>
    simp only [addComps, List.foldl_cons] at h
    by_cases hc : gs.all (fun x => x ≠ c)
    · simp only [hc, if_pos] at h
      obtain ⟨d2, hd2⟩ := addComps_append (gs ++ [c]) cs
      change addComps (gs ++ [c]) cs = gs ++ d at h
      rw [hd2] at h
      have hd : d = c :: d2 := by
        have := h
        rw [List.append_assoc] at this
        have := List.append_cancel_left this.symm
        simpa using this
      subst hd
      intro x hx
      rcases List.mem_cons.mp hx with hx | hx
      · subst hx
        refine ⟨List.mem_cons_self _ _, ?_⟩
        intro hmem
        have := List.all_eq_true.mp hc x hmem
        simp at this
      · have := ih (gs ++ [c]) d2 hd2 x hx
        refine ⟨List.mem_cons_of_mem _ this.1, ?_⟩
        intro hmem
        exact this.2 (List.mem_append_left _ hmem)
    · simp only [hc, if_neg] at h
      intro x hx
      have := ih gs d h x hx
      exact ⟨List.mem_cons_of_mem _ this.1, this.2⟩

/-- The work-list loop of `find_glyphs`: iterate the growing glyph vector by
index, appending unseen composite dependencies.  The source's cursor is a
`u16` compared against `self.glyphs.len() as u16`; it is modelled as `Nat`,
which coincides with the source while the vector stays below `2 ^ 16`
entries — the regime delimited by the hypothesis of the closure theorem
below, whose conclusions include that bound on the final vector. -/
def closureLoop (t : List GlyphEntry) (gs : List Nat) (i : Nat) :
    Except FontError (List Nat) :=
  if h : i < gs.length then
    match hm : t.get? (gs.get ⟨i, h⟩) with
    | none => .error (.InvalidFont "missing glyf entry")
    | some e => closureLoop t (addComps gs e.composites) (i + 1)
  else .ok gs
termination_by ((compsUniverse t \ gs.toFinset).card, gs.length - i)
decreasing_by
  obtain ⟨d, hd⟩ := addComps_append gs e.composites
  cases d with
  | nil =>
    rw [hd, List.append_nil]
    exact Prod.Lex.right _ (by omega)
  | cons c d' =>
    apply Prod.Lex.left
    have hfresh := addComps_fresh gs e.composites (c :: d') hd
    have hc := hfresh c (List.mem_cons_self _ _)
    apply Finset.card_lt_card
    rw [Finset.ssubset_def]
    constructor
    · intro x hx
      simp only [Finset.mem_sdiff, List.mem_toFinset] at hx ⊢
      refine ⟨hx.1, fun hmem => hx.2 ?_⟩
      rw [hd]
      exact List.mem_append_left _ hmem
    · intro hsub
      have hcU : c ∈ compsUniverse t := by
        simp only [compsUniverse, List.mem_toFinset, List.mem_flatMap]
        exact ⟨e, List.get?_mem hm, hc.1⟩
      have hcin : c ∈ compsUniverse t \ gs.toFinset := by
        simp only [Finset.mem_sdiff, List.mem_toFinset]
        exact ⟨hcU, hc.2⟩
      have := hsub hcin
      simp only [Finset.mem_sdiff, List.mem_toFinset] at this
      apply this.2
      rw [hd]
      exact List.mem_append_right _ (List.mem_cons_self _ _)

/-- Resolve each requested character through the character map, failing with
`MissingCharacter` at the first unmapped one. -/
def mapChars (cm : Nat → Option Nat) : List Nat → Except FontError (List Nat)
  | [] => .ok []
  | c :: rest =>
    match cm c with
    | none => .error (.MissingCharacter c)
    | some g => (mapChars cm rest).map (fun gs => g :: gs)

/-- The `Subsetter::find_glyphs` on a TrueType font: seed with the default glyph,
add the glyph of every requested character, then close transitively over
composite references.  (`run` rejects CFF before calling this, so the
`unimplemented!()` branch of the source is unreachable.) -/
def find_glyphs (f : FontModel) (chars : List Nat) : Except FontError (List Nat) :=
  (mapChars f.charMap chars).bind (fun mapped =>
    closureLoop f.glyf (f.defaultGlyph :: mapped) 0)

/-! ## Output packaging -/

/-- The `Subsetter::compute_mapping`: collect `(c, 1 + i)` over the enumerated
character vector into a map; later entries overwrite earlier ones exactly as
`HashMap::collect` does. -/
def compute_mapping (chars : List Nat) : Nat → Option Nat :=
  (chars.enum).foldl
    (fun m p => Function.update m p.2 (some ((1 + p.1) % 65536)))
    (fun _ => none)

/-- Index of the last occurrence of `c` in `chars` (0 when absent). -/
def lastIdxOf (c : Nat) (chars : List Nat) : Nat :=
  (chars.enum).foldl (fun acc p => if p.2 = c then p.1 else acc) 0

/-- The `Subsetter::compute_widths`: look up each kept glyph's width in the input
width table. -/
def compute_widths (widths : List Nat) : List Nat → Except FontError (List Nat)
  | [] => .ok []
  | g :: rest =>
    match widths.get? g with
    | none => .error (.InvalidFont "missing glyph width")
    | some w => (compute_widths widths rest).map (fun ws => w :: ws)

/-! ## Table directory access -/

/-- The input directory lookup (`binary_search_by_key` over the tag-sorted
input records; on the sorted input this is the same as a linear find). -/
def findRecord (tables : List TableRec) (tag : List Nat) : Option TableRec :=
  tables.find? (fun r => r.tag = tag)

/-- The `Subsetter::contains_table`. -/
def contains_table (f : FontModel) (tag : List Nat) : Bool :=
  (findRecord f.tables tag).isSome

/-- The `Subsetter::read_table_data`: locate the record and slice the raw program
bytes, failing with `MissingTable` / `InvalidFont "missing table data"`. -/
def read_table_data (f : FontModel) (tag : List Nat) : Except FontError (List Nat) :=
  match findRecord f.tables tag with
  | none => .error (.MissingTable tag)
  | some r =>
    if r.offset + r.length ≤ f.program.length then
      .ok ((f.program.drop r.offset).take r.length)
    else
      .error (.InvalidFont "missing table data")

/-! ## Per-table framing (`write_table_body`) -/

/-- Zero padding to the next 4-byte boundary for a table of `n` body bytes. -/
def padLen (n : Nat) : Nat := (4 - n % 4) % 4

/-- The `Subsetter::write_table_body`.  Every table writer in the source only
appends bytes to `body`, so a writer is modelled by the byte delta it
produces (or the error it fails with).  The body is zero-padded until the
bytes written since `start` are a multiple of 4, and the appended record
takes the pre-padding length and the checksum of the padded range
`body[start..]`. -/
def write_table_body (s : SubState) (tag : List Nat)
    (writer : Except FontError (List Nat)) : Except FontError SubState :=
  writer.map (fun delta =>
    let start := s.body.length
    let padded := s.body ++ delta ++ List.replicate (padLen delta.length) 0
    { records := s.records ++
        [⟨tag, calculate_check_sum (padded.drop start), start, delta.length⟩],
      body := padded })

/-! ## The individual table writers -/

/-- The `Subsetter::copy_table`'s body writer: the raw input table bytes. -/
def copy_table (f : FontModel) (s : SubState) (tag : List Nat) :
    Except FontError SubState :=
  write_table_body s tag (read_table_data f tag)

/-- The `hhea` tag. -/
def hheaTag : List Nat := [0x68, 0x68, 0x65, 0x61]

/-- The `hmtx` tag. -/
def hmtxTag : List Nat := [0x68, 0x6d, 0x74, 0x78]

/-- The `maxp` tag. -/
def maxpTag : List Nat := [0x6d, 0x61, 0x78, 0x70]

/-- The `cmap` tag. -/
def cmapTag : List Nat := [0x63, 0x6d, 0x61, 0x70]

/-- The `glyf` tag. -/
def glyfTag : List Nat := [0x67, 0x6c, 0x79, 0x66]

/-- The `loca` tag. -/
def locaTag : List Nat := [0x6c, 0x6f, 0x63, 0x61]

/-- The `head` tag. -/
def headTag : List Nat := [0x68, 0x65, 0x61, 0x64]

/-- The `name` tag. -/
def nameTag : List Nat := [0x6e, 0x61, 0x6d, 0x65]

/-- The `OS/2` tag. -/
def os2Tag : List Nat := [0x4f, 0x53, 0x2f, 0x32]

/-- The `post` tag. -/
def postTag : List Nat := [0x70, 0x6f, 0x73, 0x74]

/-- The `cvt ` tag. -/
def cvtTag : List Nat := [0x63, 0x76, 0x74, 0x20]

/-- The `fpgm` tag. -/
def fpgmTag : List Nat := [0x66, 0x70, 0x67, 0x6d]

/-- The `prep` tag. -/
def prepTag : List Nat := [0x70, 0x72, 0x65, 0x70]

/-- The `gasp` tag. -/
def gaspTag : List Nat := [0x67, 0x61, 0x73, 0x70]

/-- The `Subsetter::subset_hhea`: copy all but the final two bytes, then the new
glyph count as a big-endian `u16`. -/
def subset_hhea (f : FontModel) (glyphs : List Nat) (s : SubState) :
    Except FontError SubState :=
  write_table_body s hheaTag
    ((read_table_data f hheaTag).map (fun h =>
      h.take (h.length - 2) ++ writeU16 glyphs.length))

/-- The `hmtx` body: one full long-metric record per kept glyph. -/
def hmtxBytes (hm : Nat → Option (Nat × Int)) : List Nat → Except FontError (List Nat)
  | [] => .ok []
  | g :: rest =>
    match hm g with
    | none => .error (.InvalidFont "missing glyph metrics")
    | some m => (hmtxBytes hm rest).map
        (fun bs => writeU16 m.1 ++ writeI16 m.2 ++ bs)

/-- The `Subsetter::subset_hmtx`. -/
def subset_hmtx (f : FontModel) (glyphs : List Nat) (s : SubState) :
    Except FontError SubState :=
  write_table_body s hmtxTag (hmtxBytes f.hmtx glyphs)

/-- The `Subsetter::subset_maxp`: version, new glyph count, rest. -/
def subset_maxp (f : FontModel) (glyphs : List Nat) (s : SubState) :
    Except FontError SubState :=
  write_table_body s maxpTag
    ((read_table_data f maxpTag).map (fun m =>
      m.take 4 ++ writeU16 glyphs.length ++ m.drop 6))

/-- The inner `while` of the `cmap` group scan: starting from index `e`,
advance while the next character's scalar value is exactly one more. -/
def runEnd (chars : List Nat) (e : Nat) : Nat :=
  if h : e + 1 < chars.length ∧ chars.getD (e + 1) 0 = chars.getD e 0 + 1 then
    runEnd chars (e + 1)
  else e
termination_by chars.length - e

theorem le_runEnd_fuel (chars : List Nat) :
    ∀ k e, chars.length - e ≤ k → e ≤ runEnd chars e := by
  intro k
  induction k with
  | zero =>
    intro e he
    rw [runEnd]
    split
    · omega
    · exact le_rfl
  | succ k ih =>
    intro e he
    rw [runEnd]
    split
    · rename_i hcond
      have := ih (e + 1) (by omega)
      omega
    · exact le_rfl

theorem le_runEnd (chars : List Nat) (e : Nat) : e ≤ runEnd chars e :=
  le_runEnd_fuel chars (chars.length - e) e le_rfl

/-- The outer `while` of the `cmap` group scan: coalesce the characters into
groups `(first scalar, last scalar, 1 + start index)`. -/
def cmapGroups (chars : List Nat) (e : Nat) : List (Nat × Nat × Nat) :=
  if h : e < chars.length then
    (chars.getD e 0, chars.getD (runEnd chars e) 0, 1 + e) ::
      cmapGroups chars (runEnd chars e + 1)
  else []
termination_by chars.length - e
decreasing_by
  have := le_runEnd chars e
  omega

/-- The `cmap` body writer: fixed format-12 directory, subtable header, then
the groups. -/
def subset_cmap_body (chars : List Nat) : List Nat :=
  let groups := cmapGroups chars 0
  writeU16 0 ++ writeU16 1 ++ writeU16 3 ++ writeU16 1 ++ writeU32 12 ++
  writeU16 12 ++ writeU16 0 ++ writeU32 (16 + 12 * groups.length) ++
  writeU32 0 ++ writeU32 groups.length ++
  groups.flatMap (fun g => writeU32 g.1 ++ writeU32 g.2.1 ++ writeU32 g.2.2)

/-- The `Subsetter::subset_cmap`. -/
def subset_cmap (chars : List Nat) (s : SubState) : Except FontError SubState :=
  write_table_body s cmapTag (.ok (subset_cmap_body chars))

/-- The skip distance over a composite component's argument and transform
bytes, from its flag bits. -/
def skipLen (flags : Nat) : Nat :=
  (if flags &&& 1 ≠ 0 then 4 else 2) +
  (if flags &&& 8 ≠ 0 then 2
   else if flags &&& 64 ≠ 0 then 4
   else if flags &&& 128 ≠ 0 then 8
   else 0)

/-- The composite-component loop of `subset_glyf`: at each component read
`flags` and the old glyph index, replace the glyph index in place by its
position in `glyphs`, stop when the MORE_COMPONENTS bit (0x20) is clear,
otherwise skip the variable-length trailer and continue. -/
theorem length_setU16 (data : List Nat) (p v : Nat) :
    (setU16 data p v).length = data.length := by
  simp [setU16]

theorem readU16_lt (data : List Nat) (p v : Nat) (h : readU16 data p = some v) :
    p + 1 < data.length := by
  unfold readU16 at h
  cases hg : data.get? p with
  | none => rw [hg] at h; simp at h
  | some a =>
    cases hg2 : data.get? (p + 1) with
    | none => rw [hg, hg2] at h; simp at h
    | some b => exact (List.get?_eq_some.mp hg2).1

def compLoop (glyphs : List Nat) (data : List Nat) (pos : Nat) :
    Except FontError (List Nat) :=
  match h1 : readU16 data pos with
  | none => .error .Io
  | some flags =>
    match readU16 data (pos + 2) with
    | none => .error .Io
    | some gi =>
      match glyphs.findIdx? (fun g => g = gi) with
      | none => .error (.InvalidFont "invalid composite glyph")
      | some newGi =>
        let data' := setU16 data (pos + 2) newGi
        if flags &&& 0x20 = 0 then .ok data'
        else compLoop glyphs data' (pos + 4 + skipLen flags)
termination_by data.length - pos
decreasing_by
  have := readU16_lt data pos flags h1
  simp only [length_setU16]
  omega

/-- One glyph's contribution to the new `glyf` body: nothing for an empty
`loca` range, the raw bytes for a simple glyph, the component-rewritten bytes
for a composite glyph. -/
def glyfGlyph (glyphs : List Nat) (loca : List Nat) (glyfData : List Nat)
    (g : Nat) : Except FontError (List Nat) :=
  match locaOffset loca g with
  | none => .error (.InvalidFont "missing loca entry")
  | some start =>
    match locaOffset loca (g + 1) with
    | none => .error (.InvalidFont "missing loca entry")
    | some stop =>
      if stop = start then .ok []
      else if start ≤ stop ∧ stop ≤ glyfData.length then
        let gdata := (glyfData.drop start).take (stop - start)
        match readU16 gdata 0 with
        | none => .error .Io
        | some numContours =>
          -- `read_i16` yields a negative count exactly when the high bit is set
          if numContours < 0x8000 then .ok gdata
          else compLoop glyphs gdata 10
      else .error (.InvalidFont "missing glyph data")

/-- The `glyf` body writer: concatenate the contributions of the kept glyphs
in order. -/
def glyfBody (glyphs : List Nat) (loca : List Nat) (glyfData : List Nat) :
    List Nat → Except FontError (List Nat)
  | [] => .ok []
  | g :: rest =>
    (glyfGlyph glyphs loca glyfData g).bind (fun bs =>
      (glyfBody glyphs loca glyfData rest).map (fun bs2 => bs ++ bs2))

/-- The `Subsetter::subset_glyf`. -/
def subset_glyf (f : FontModel) (glyphs : List Nat) (s : SubState) :
    Except FontError SubState :=
  (read_table_data f glyfTag).bind (fun glyfData =>
    write_table_body s glyfTag (glyfBody glyphs f.loca glyfData glyphs))

/-- The `loca` body writer: per kept glyph, write the running offset in the
input's offset format, then advance by that glyph's input byte length; the
trailing sentinel is written by the statement after the loop, which is a
`write_u32` regardless of the format. -/
def locaBody (format : Nat) (loca : List Nat) :
    List Nat → Nat → Except FontError (List Nat)
  | [], offset => .ok (writeU32 offset)
  | g :: rest, offset =>
    let entry := if format = 0 then writeU16 (offset / 2) else writeU32 offset
    match locaLength loca g with
    | none => .error (.InvalidFont "missing loca entry")
    | some len => (locaBody format loca rest (offset + len)).map
        (fun bs => entry ++ bs)

/-- The `Subsetter::subset_loca`. -/
def subset_loca (f : FontModel) (glyphs : List Nat) (s : SubState) :
    Except FontError SubState :=
  write_table_body s locaTag (locaBody f.indexToLocFormat f.loca glyphs 0)

/-! ## Dispatch and the run loop -/

/-- The copy-only tags of the dispatch's first arm. -/
def copyTags : List (List Nat) :=
  [headTag, nameTag, os2Tag, postTag, cvtTag, fpgmTag, prepTag, gaspTag]

/-- All tags `subset_table` recognizes. -/
def recognizedTags : List (List Nat) :=
  copyTags ++ [hheaTag, hmtxTag, maxpTag, cmapTag, glyfTag, locaTag]

/-- The `Subsetter::subset_table`: route a recognized tag to its writer, fail
with `UnsupportedTable` otherwise. -/
def subset_table (f : FontModel) (chars glyphs : List Nat) (s : SubState)
    (tag : List Nat) : Except FontError SubState :=
  if tag ∈ copyTags then copy_table f s tag
  else if tag = hheaTag then subset_hhea f glyphs s
  else if tag = hmtxTag then subset_hmtx f glyphs s
  else if tag = maxpTag then subset_maxp f glyphs s
  else if tag = cmapTag then subset_cmap chars s
  else if tag = glyfTag then subset_glyf f glyphs s
  else if tag = locaTag then subset_loca f glyphs s
  else .error (.UnsupportedTable tag)

/-- Modelled from the spec: the external `opentype` crate's `Tag` parser,
whose code is not part of this repository.  Per spec §6, a requested tag
string parses exactly when it is 4 bytes long and all-ASCII; otherwise the
request fails with `UnsupportedTable` carrying the raw string. -/
def parseTag (t : List Nat) : Option (List Nat) :=
  if t.length = 4 ∧ t.all (fun b => b < 128) then some t else none

/-- The table loop of `Subsetter::run`: parse each requested tag, skip it
silently when the input directory lacks it, and subset it otherwise. -/
def runLoop (f : FontModel) (chars glyphs : List Nat) (s : SubState) :
    List (List Nat) → Except FontError SubState
  | [] => .ok s
  | t :: rest =>
    match parseTag t with
    | none => .error (.UnsupportedTable t)
    | some tag =>
      if contains_table f tag then
        (subset_table f chars glyphs s tag).bind
          (fun s' => runLoop f chars glyphs s' rest)
      else runLoop f chars glyphs s rest

/-! ## Header synthesis (`write_header`) -/

/-- The doubling `while` computing the greatest power of two not exceeding
`n` (starting from `mp = 1`).  The `0 < mp` conjunct only makes termination
manifest; it never fails on the actual call, whose `mp` is positive. -/
def maxPowerLoop (n : Nat) (mp : Nat) : Nat :=
  if 0 < mp ∧ mp * 2 ≤ n then maxPowerLoop n (mp * 2) else mp
termination_by n - mp

/-- The `num_tables`: the record count cast to `u16`. -/
def numTablesOf (records : List TableRec) : Nat := records.length % 65536

/-- The `max_power` after the doubling loop and the `min` clamp. -/
def maxPowerOf (records : List TableRec) : Nat :=
  min (maxPowerLoop (numTablesOf records) 1) (numTablesOf records)

/-- The `search_range = max_power * 16` in `u16` arithmetic. -/
def searchRangeOf (records : List TableRec) : Nat :=
  maxPowerOf records * 16 % 65536

/-- The `entry_selector = (max_power as f32).log2() as u16`.  For the power of
two the loop produces this is the exact base-2 logarithm; for `max_power = 0`
the float `log2` is `-inf`, which the saturating cast sends to `0`. -/
def entrySelectorOf (records : List TableRec) : Nat :=
  if maxPowerOf records = 0 then 0 else Nat.log2 (maxPowerOf records)

/-- The `range_shift = num_tables * 16 - search_range` in wrapping `u16`
arithmetic. -/
def rangeShiftOf (records : List TableRec) : Nat :=
  (numTablesOf records * 16 % 65536 + 65536 - searchRangeOf records) % 65536

/-- The serialized directory entry of one record: tag bytes, checksum, the
offset rebased by the header length, and the pre-padding length. -/
def recordBytes (headerLen : Nat) (r : TableRec) : List Nat :=
  r.tag ++ writeU32 r.check_sum ++ writeU32 (headerLen + r.offset) ++
    writeU32 r.length

/-- The `Subsetter::write_header`: synthesize the 12-byte header and the table
directory, and prepend them to the body. -/
def write_header (outlines : Outlines) (records : List TableRec)
    (body : List Nat) : List Nat :=
  let headerLen := 12 + records.length * 16
  writeU32 (match outlines with
    | .TrueType => 0x00010000
    | .CFF => 0x4f54544f) ++
  writeU16 (numTablesOf records) ++
  writeU16 (searchRangeOf records) ++
  writeU16 (entrySelectorOf records) ++
  writeU16 (rangeShiftOf records) ++
  records.flatMap (recordBytes headerLen) ++
  body

/-! ## The whole pipeline (`subset` / `run`) -/

/-- The `Subsetter::run` (the body of `Subsetter::subset`): reject CFF, compute
the glyph closure, write the requested tables, synthesize the header, and
package the output font. -/
def run (f : FontModel) (chars : List Nat) (tags : List (List Nat)) :
    Except FontError OutFont :=
  if f.outlines = .CFF then .error (.UnsupportedFont "CFF outlines")
  else
    (find_glyphs f chars).bind (fun glyphs =>
      (runLoop f chars glyphs ⟨[], []⟩ tags).bind (fun s =>
        (compute_widths f.widths glyphs).map (fun ws =>
          { mapping := compute_mapping chars
            widths := ws
            program := write_header f.outlines s.records s.body })))

/-- The `Except.isOk` as a plain function. -/
def exceptOk {ε α : Type} : Except ε α → Bool
  | .ok _ => true
  | .error _ => false

/-! ## C10 — totality of the checksum -/

theorem checkSumLoop_lt : ∀ (data : List Nat) (s : Nat), s < 2 ^ 32 →
    checkSumLoop s data < 2 ^ 32
  | b0 :: b1 :: b2 :: b3 :: rest, _, _ =>
      checkSumLoop_lt rest _ (Nat.mod_lt _ (by norm_num))
  | [], _, hs => hs
  | [_], _, hs => hs
  | [_, _], _, hs => hs
  | [_, _, _], _, hs => hs

theorem checkSumLoop_take : ∀ (data : List Nat) (s : Nat),
    checkSumLoop s data = checkSumLoop s (data.take (data.length / 4 * 4))
  | b0 :: b1 :: b2 :: b3 :: rest, s => by
      have ih := checkSumLoop_take rest
        ((s + (b0 * 2 ^ 24 + b1 * 2 ^ 16 + b2 * 2 ^ 8 + b3)) % 2 ^ 32)
      have hlen : (b0 :: b1 :: b2 :: b3 :: rest).length / 4 * 4 =
          rest.length / 4 * 4 + 4 := by
        have h4 : (rest.length + 4) / 4 = rest.length / 4 + 1 :=
          Nat.add_div_right _ (by norm_num)
        simp only [List.length_cons]
        have : rest.length + 1 + 1 + 1 + 1 = rest.length + 4 := by omega
        rw [this, h4]
        ring
      rw [hlen]
      show checkSumLoop _ rest =
        checkSumLoop s ((b0 :: b1 :: b2 :: b3 :: rest).take (rest.length / 4 * 4 + 4))
      simp only [show ∀ k, k + 4 = k + 1 + 1 + 1 + 1 from fun k => by omega,
        List.take_succ_cons]
      exact ih
  | [], s => rfl
  | [_], s => by simp [checkSumLoop]
  | [_, _], s => by simp [checkSumLoop]
  | [_, _, _], s => by simp [checkSumLoop]

/-- C10: `calculate_check_sum` is total on every byte slice: it sums the
big-endian `u32` of each complete 4-byte chunk mod `2^32` and silently
ignores a trailing remainder of 1–3 bytes, so it agrees with itself on the
largest multiple-of-4 prefix and always yields a `u32`. -/
theorem c10_checksum_total (data : List Nat) :
    calculate_check_sum data =
      calculate_check_sum (data.take (data.length / 4 * 4)) ∧
    calculate_check_sum data < 2 ^ 32 :=
  ⟨checkSumLoop_take data 0, checkSumLoop_lt data 0 (by norm_num)⟩

/-! ## C9 — the output character mapping -/

theorem compute_mapping_append (l : List Nat) (c : Nat) :
    compute_mapping (l ++ [c]) =
      Function.update (compute_mapping l) c (some ((1 + l.length) % 65536)) := by
  unfold compute_mapping
  rw [List.enum_append, List.foldl_append]
  simp [List.enumFrom]

theorem lastIdxOf_append (l : List Nat) (c d : Nat) :
    lastIdxOf c (l ++ [d]) = if d = c then l.length else lastIdxOf c l := by
  unfold lastIdxOf
  rw [List.enum_append, List.foldl_append]
  simp [List.enumFrom]

/-- C9: for every character in the request list, the output mapping sends it
to one plus the index of its **last** occurrence (later `HashMap` inserts
overwrite earlier ones). -/
theorem c9_mapping_last_wins (chars : List Nat) (hlen : chars.length < 65536) :
    ∀ c ∈ chars,
      compute_mapping chars c = some (1 + lastIdxOf c chars) ∧
      lastIdxOf c chars < chars.length ∧
      chars.getD (lastIdxOf c chars) 0 = c ∧
      ∀ j, lastIdxOf c chars < j → j < chars.length → chars.getD j 0 ≠ c := by
  induction chars using List.reverseRecOn with
  | nil => intro c hc; simp at hc
  | append_singleton l d ih =>
    intro c hc
    have hlen' : l.length < 65536 := by
      simp only [List.length_append, List.length_singleton] at hlen
      omega
    by_cases hd : d = c
    · subst hd
      have hmod : (1 + l.length) % 65536 = 1 + l.length := by
        apply Nat.mod_eq_of_lt
        simp only [List.length_append, List.length_singleton] at hlen
        omega
      refine ⟨?_, ?_, ?_, ?_⟩
      · rw [compute_mapping_append, lastIdxOf_append, if_pos rfl,
          Function.update_same, hmod]
      · rw [lastIdxOf_append, if_pos rfl]
        simp
      · rw [lastIdxOf_append, if_pos rfl]
        rw [List.getD_append_right _ _ _ _ le_rfl]
        simp
      · intro j hj1 hj2
        rw [lastIdxOf_append, if_pos rfl] at hj1
        simp only [List.length_append, List.length_singleton] at hj2
        omega
    · have hcl : c ∈ l := by
        rcases List.mem_append.mp hc with h | h
        · exact h
        · simp at h; exact absurd h.symm hd
      obtain ⟨h1, h2, h3, h4⟩ := ih hlen' c hcl
      refine ⟨?_, ?_, ?_, ?_⟩
      · rw [compute_mapping_append, lastIdxOf_append, if_neg hd,
          Function.update_noteq (fun h => hd h.symm), h1]
      · rw [lastIdxOf_append, if_neg hd]
        simp only [List.length_append, List.length_singleton]
        omega
      · rw [lastIdxOf_append, if_neg hd, List.getD_append _ _ _ _ h2]
        exact h3
      · intro j hj1 hj2
        rw [lastIdxOf_append, if_neg hd] at hj1
        simp only [List.length_append, List.length_singleton] at hj2
        rcases Nat.lt_or_ge j l.length with hjl | hjl
        · rw [List.getD_append _ _ _ _ hjl]
          exact h4 j hj1 hjl
        · have : j = l.length := by omega
          subst this
          rw [List.getD_append_right _ _ _ _ le_rfl]
          simpa using hd

/-- Witness for C9 at a concrete repeated-character request. -/
theorem c9_witness :
    compute_mapping [97, 98, 97] 97 = some 3 ∧
    compute_mapping [97, 98, 97] 98 = some 2 := by
  constructor
  · have h := (c9_mapping_last_wins [97, 98, 97] (by norm_num) 97 (by decide)).1
    rw [show lastIdxOf 97 [97, 98, 97] = 2 from rfl] at h
    exact h
  · have h := (c9_mapping_last_wins [97, 98, 97] (by norm_num) 98 (by decide)).1
    rw [show lastIdxOf 98 [97, 98, 97] = 1 from rfl] at h
    exact h

/-! ## C8 — the directory search-hint fields -/

theorem maxPowerLoop_spec (n : Nat) :
    ∀ fuel mp, n - mp ≤ fuel → 0 < mp → mp ≤ n →
      (∃ k, maxPowerLoop n mp = mp * 2 ^ k) ∧
      maxPowerLoop n mp ≤ n ∧ n < 2 * maxPowerLoop n mp := by
  intro fuel
  induction fuel with
  | zero =>
    intro mp hfuel hpos hle
    rw [maxPowerLoop]
    have hcond : ¬(0 < mp ∧ mp * 2 ≤ n) := by omega
    rw [if_neg hcond]
    exact ⟨⟨0, by ring⟩, hle, by omega⟩
  | succ fuel ih =>
    intro mp hfuel hpos hle
    rw [maxPowerLoop]
    by_cases hcond : 0 < mp ∧ mp * 2 ≤ n
    · rw [if_pos hcond]
      have := ih (mp * 2) (by omega) (by omega) hcond.2
      obtain ⟨⟨k, hk⟩, h2, h3⟩ := this
      exact ⟨⟨k + 1, by rw [hk]; ring⟩, h2, h3⟩
    · rw [if_neg hcond]
      exact ⟨⟨0, by ring⟩, hle, by omega⟩

theorem log2_two_pow (k : Nat) : Nat.log2 (2 ^ k) = k := by
  induction k with
  | zero => simp [Nat.log2]
  | succ k ih =>
    rw [Nat.log2]
    have h2 : 2 ^ (k + 1) ≥ 2 := by
      calc 2 = 2 ^ 1 := by norm_num
      _ ≤ 2 ^ (k + 1) := Nat.pow_le_pow_right (by norm_num) (by omega)
    rw [if_pos h2]
    have : 2 ^ (k + 1) / 2 = 2 ^ k := by
      rw [pow_succ, Nat.mul_div_cancel _ (by norm_num)]
    rw [this, ih]

/-- C8 (amended): whenever at least one and fewer than 4096 table records
were emitted, the search-hint fields satisfy the claimed equations:
`searchRange = 2^entrySelector · 16` and
`rangeShift = numTables · 16 − searchRange`, with `maxPow2` the largest
power of two not exceeding the record count. -/
theorem c8_search_fields (records : List TableRec)
    (h1 : 1 ≤ records.length) (h2 : records.length < 4096) :
    searchRangeOf records = 2 ^ entrySelectorOf records * 16 ∧
    rangeShiftOf records = records.length * 16 - searchRangeOf records ∧
    searchRangeOf records = maxPowerOf records * 16 ∧
    (∃ k, maxPowerOf records = 2 ^ k) ∧
    maxPowerOf records ≤ records.length ∧
    records.length < 2 * maxPowerOf records ∧
    numTablesOf records = records.length := by
  have hnum : numTablesOf records = records.length := by
    unfold numTablesOf
    omega
  have hspec := maxPowerLoop_spec (numTablesOf records)
    (numTablesOf records) 1 (by omega) (by norm_num) (by omega)
  obtain ⟨⟨k, hk⟩, hle, hlt⟩ := hspec
  simp only [one_mul] at hk
  have hmaxp : maxPowerOf records = 2 ^ k := by
    unfold maxPowerOf
    rw [hk]
    exact min_eq_left (hk ▸ hle)
  have hmplen : maxPowerOf records ≤ records.length := by
    rw [hmaxp, ← hk, ← hnum]; exact hle
  have hsr : searchRangeOf records = maxPowerOf records * 16 := by
    unfold searchRangeOf
    apply Nat.mod_eq_of_lt
    have : maxPowerOf records ≤ records.length := hmplen
    omega
  have hes : entrySelectorOf records = k := by
    unfold entrySelectorOf
    rw [hmaxp]
    rw [if_neg (by positivity)]
    exact log2_two_pow k
  refine ⟨?_, ?_, hsr, ⟨k, hmaxp⟩, hmplen, ?_, hnum⟩
  · rw [hsr, hes, hmaxp]
  · unfold rangeShiftOf
    rw [hsr, hnum]
    have hb1 : records.length * 16 < 65536 := by omega
    have hb2 : maxPowerOf records * 16 ≤ records.length * 16 := by
      exact Nat.mul_le_mul_right _ hmplen
    omega
  · rw [hmaxp, ← hk, ← hnum]; exact hlt

/-- A concrete three-record directory for the C8 witness. -/
def c8records : List TableRec := [⟨[], 0, 0, 0⟩, ⟨[], 0, 0, 0⟩, ⟨[], 0, 0, 0⟩]

/-- Witness for C8 (amended) at a three-table directory. -/
theorem c8_witness :
    searchRangeOf c8records = 2 ^ entrySelectorOf c8records * 16 ∧
    rangeShiftOf c8records = c8records.length * 16 - searchRangeOf c8records :=
  ⟨(c8_search_fields c8records (by decide) (by decide)).1,
   (c8_search_fields c8records (by decide) (by decide)).2.1⟩

/-- Counterexample for C8 as stated: with zero emitted records (an empty
requested-table list) the loop's clamp sends `maxPow2` to `0`, all three
hint fields are `0`, and `searchRange = 2^entrySelector · 16` fails
(`0 ≠ 16`). -/
theorem c8_counterexample :
    numTablesOf [] = 0 ∧ searchRangeOf [] = 0 ∧ entrySelectorOf [] = 0 ∧
    rangeShiftOf [] = 0 ∧ searchRangeOf [] ≠ 2 ^ entrySelectorOf [] * 16 := by
  have hmp : maxPowerOf [] = 0 := by
    unfold maxPowerOf numTablesOf
    simp
  refine ⟨rfl, ?_, ?_, ?_, ?_⟩
  · unfold searchRangeOf; rw [hmp]
  · unfold entrySelectorOf; rw [hmp]; simp
  · unfold rangeShiftOf searchRangeOf; rw [hmp]; rfl
  · unfold searchRangeOf
    rw [hmp]
    intro h
    simp at h

/-! ## C3 — the `loca` rewrite and its sentinel -/

/-- C3: evaluating the `loca` writer at a short-format (`indexToLocFormat =
0`) input with one kept glyph of byte length 2.  The per-glyph entry is a
`u16` half-offset, but the trailing sentinel is emitted by the `write_u32`
after the loop, so the output is the six bytes `[0,0, 0,0,0,2]` and not the
four bytes `[0,0, 0,1]` (two `u16` half-offset entries) that the same-format
rule predicts; under the long format the writer does emit all entries as
`u32`. -/
theorem c3_loca_short_sentinel :
    locaBody 0 [0, 2] [0] 0 = .ok [0, 0, 0, 0, 0, 2] ∧
    writeU16 (0 / 2) ++ writeU16 (2 / 2) = [0, 0, 0, 1] ∧
    ([0, 0, 0, 0, 0, 2] : List Nat) ≠ [0, 0, 0, 1] ∧
    locaBody 1 [0, 2] [0] 0 = .ok (writeU32 0 ++ writeU32 2) := by
  refine ⟨rfl, rfl, by simp, rfl⟩

/-! ## C7 — uniform per-table framing -/

/-- C7: the framing helper pads the body with zeroes to a 4-byte boundary,
records the pre-padding length, computes the checksum over the padded range
starting at the table's start, stores the body-relative start as the offset,
and the header writer rebases each stored offset by the header length. -/
theorem c7_framing (s : SubState) (tag delta : List Nat) :
    write_table_body s tag (.ok delta) = .ok
      { records := s.records ++ [⟨tag,
          calculate_check_sum (delta ++ List.replicate (padLen delta.length) 0),
          s.body.length, delta.length⟩],
        body := s.body ++ delta ++ List.replicate (padLen delta.length) 0 } ∧
    (delta.length + padLen delta.length) % 4 = 0 ∧
    padLen delta.length < 4 ∧
    (∀ e : FontError, write_table_body s tag (.error e) = .error e) ∧
    (∀ o records body, write_header o records body =
      writeU32 (match o with | .TrueType => 0x00010000 | .CFF => 0x4f54544f) ++
      writeU16 (numTablesOf records) ++ writeU16 (searchRangeOf records) ++
      writeU16 (entrySelectorOf records) ++ writeU16 (rangeShiftOf records) ++
      records.flatMap (fun r => r.tag ++ writeU32 r.check_sum ++
        writeU32 (12 + records.length * 16 + r.offset) ++ writeU32 r.length) ++
      body) := by
  refine ⟨?_, ?_, ?_, ?_, ?_⟩
  · unfold write_table_body
    simp only [Except.map]
    have hdrop : (s.body ++ delta ++ List.replicate (padLen delta.length) 0).drop
        s.body.length = delta ++ List.replicate (padLen delta.length) 0 := by
      rw [List.append_assoc, List.drop_left]
    rw [hdrop]
  · unfold padLen
    omega
  · unfold padLen
    omega
  · intro e
    rfl
  · intro o records body
    rfl

/-! ## C6 — the `cmap` rewrite -/

/-- Spec-shaped (§4.7): how many further characters continue a consecutive
run that currently ends with scalar `c`. -/
def chainLen (c : Nat) : List Nat → Nat
  | [] => 0
  | d :: rest => if d = c + 1 then 1 + chainLen d rest else 0

/-- Spec-shaped (§4.7): walk the character sequence in order and coalesce it
into maximal runs of consecutive scalar values; the run beginning at
position `p` yields the group `(first, last, 1 + p)`. -/
def specRuns : List Nat → Nat → List (Nat × Nat × Nat)
  | [], _ => []
  | c :: rest, p =>
    (c, (c :: rest).getD (chainLen c rest) 0, 1 + p) ::
      specRuns (rest.drop (chainLen c rest)) (p + chainLen c rest + 1)
termination_by l => l.length
decreasing_by simp [List.length_drop]; omega

theorem drop_cons_getD (chars : List Nat) (e : Nat) (h : e + 1 < chars.length) :
    chars.drop (e + 1) = chars.getD (e + 1) 0 :: chars.drop (e + 2) := by
  rw [List.drop_eq_getElem_cons h]
  congr 1
  exact (List.getD_eq_getElem _ _ h).symm

theorem runEnd_eq_chain (chars : List Nat) :
    ∀ fuel e, chars.length - e ≤ fuel → e < chars.length →
      runEnd chars e = e + chainLen (chars.getD e 0) (chars.drop (e + 1)) := by
  intro fuel
  induction fuel with
  | zero => intro e hf he; omega
  | succ fuel ih =>
    intro e hf he
    rw [runEnd]
    by_cases h : e + 1 < chars.length ∧ chars.getD (e + 1) 0 = chars.getD e 0 + 1
    · rw [dif_pos h]
      have hchain : chainLen (chars.getD e 0) (chars.drop (e + 1)) =
          1 + chainLen (chars.getD (e + 1) 0) (chars.drop (e + 2)) := by
        rw [drop_cons_getD chars e h.1]
        simp only [chainLen]
        rw [if_pos h.2]
      have hih := ih (e + 1) (by omega) h.1
      rw [show e + 1 + 1 = e + 2 from rfl] at hih
      rw [hih, hchain, h.2]
      omega
    · rw [dif_neg h]
      have hchain0 : chainLen (chars.getD e 0) (chars.drop (e + 1)) = 0 := by
        rcases Nat.lt_or_ge (e + 1) chars.length with h1 | h1
        · push_neg at h
          have hne := h h1
          rw [drop_cons_getD chars e h1]
          simp only [chainLen]
          rw [if_neg hne]
        · rw [List.drop_eq_nil_of_le h1]
          rfl
      rw [hchain0]
      omega

theorem cmapGroups_eq_spec (chars : List Nat) :
    ∀ fuel e, chars.length - e ≤ fuel →
      cmapGroups chars e = specRuns (chars.drop e) e := by
  intro fuel
  induction fuel with
  | zero =>
    intro e hf
    rw [cmapGroups, dif_neg (by omega), List.drop_eq_nil_of_le (by omega)]
    simp [specRuns]
  | succ fuel ih =>
    intro e hf
    rw [cmapGroups]
    by_cases h : e < chars.length
    · rw [dif_pos h]
      have hre := runEnd_eq_chain chars (chars.length - e) e le_rfl h
      have hdrop : chars.drop e = chars.getD e 0 :: chars.drop (e + 1) := by
        rw [List.drop_eq_getElem_cons h]
        congr 1
        exact (List.getD_eq_getElem _ _ h).symm
      rw [hdrop]
      rw [specRuns]
      have hgetD : (chars.getD e 0 :: chars.drop (e + 1)).getD
          (chainLen (chars.getD e 0) (chars.drop (e + 1))) 0 =
          chars.getD (runEnd chars e) 0 := by
        rw [← hdrop, hre]
        rw [List.getD_eq_getD_get?, List.getD_eq_getD_get?, List.get?_drop]
        exact (List.getD_eq_getD_get? _ _ _).symm
      rw [hgetD]
      have hrest : (chars.drop (e + 1)).drop
          (chainLen (chars.getD e 0) (chars.drop (e + 1))) =
          chars.drop (runEnd chars e + 1) := by
        rw [List.drop_drop, hre]
        congr 1
        omega
      rw [hrest]
      have hp : e + chainLen (chars.getD e 0) (chars.drop (e + 1)) + 1 =
          runEnd chars e + 1 := by omega
      rw [hp]
      have hle := le_runEnd chars e
      rw [ih (runEnd chars e + 1) (by omega)]
    · rw [dif_neg h, List.drop_eq_nil_of_le (by omega)]
      simp [specRuns]

/-- C6: the `cmap` writer emits exactly the fixed format-12 directory
(version 0, one table, platform 3, encoding 1, offset 12), the format-12
subtable header (`length = 16 + 12·g`, language 0, `numGroups = g`), and one
group per maximal consecutive run of `chars`, the run starting at position
`p` getting `startGlyphID = 1 + p`; all fields big-endian. -/
theorem c6_cmap_layout (chars : List Nat) :
    cmapGroups chars 0 = specRuns chars 0 ∧
    subset_cmap_body chars =
      writeU16 0 ++ writeU16 1 ++ writeU16 3 ++ writeU16 1 ++ writeU32 12 ++
      writeU16 12 ++ writeU16 0 ++
      writeU32 (16 + 12 * (specRuns chars 0).length) ++
      writeU32 0 ++ writeU32 (specRuns chars 0).length ++
      (specRuns chars 0).flatMap
        (fun g => writeU32 g.1 ++ writeU32 g.2.1 ++ writeU32 g.2.2) := by
  have hmain : cmapGroups chars 0 = specRuns chars 0 := by
    have := cmapGroups_eq_spec chars chars.length 0 (by omega)
    simpa using this
  exact ⟨hmain, by unfold subset_cmap_body; rw [hmain]⟩

/-! ## C1 / C2 — record order and tag dispatch at the run level -/

/-- Bytewise (lexicographic) strict order on tag byte lists. -/
def tagLtB : List Nat → List Nat → Bool
  | [], [] => false
  | [], _ :: _ => true
  | _ :: _, [] => false
  | x :: xs, y :: ys =>
    if x < y then true else if x = y then tagLtB xs ys else false

/-- Whether a tag sequence is ascending in bytewise order. -/
def tagsSorted : List (List Nat) → Bool
  | [] => true
  | [_] => true
  | a :: b :: rest => (tagLtB a b || a == b) && tagsSorted (b :: rest)

/-- A minimal TrueType font whose directory holds a `head` table (bytes
`[1,2,3,4]`) and a `name` table (bytes `[5,6,7,8]`), with one glyph that has
no composites. -/
def fontC1 : FontModel where
  program := [1, 2, 3, 4, 5, 6, 7, 8]
  tables := [⟨headTag, 0, 0, 4⟩, ⟨nameTag, 0, 4, 4⟩]
  outlines := .TrueType
  defaultGlyph := 0
  widths := [10]
  charMap := fun _ => none
  glyf := [⟨[]⟩]
  loca := [0, 0]
  indexToLocFormat := 1
  hmtx := fun _ => none

/-- The `DSIG` tag. -/
def dsigTag : List Nat := [0x44, 0x53, 0x49, 0x47]

/-- The `fontC1` with a `DSIG` table added to the directory (still tag-sorted). -/
def fontC2 : FontModel := { fontC1 with
  tables := ⟨dsigTag, 0, 0, 0⟩ :: fontC1.tables }

/-- Helper: a `run` on `fontC1` with no characters succeeds as soon as its
table loop does. -/
theorem run_fontC1_ok (tags : List (List Nat))
    (hs : ∃ s, runLoop fontC1 [] [0] ⟨[], []⟩ tags = .ok s) :
    ∃ out, run fontC1 [] tags = .ok out := by
  obtain ⟨s, hsl⟩ := hs
  unfold run
  rw [if_neg (by decide)]
  have hfg : find_glyphs fontC1 [] = .ok [0] := by
    unfold find_glyphs
    rw [show mapChars fontC1.charMap [] = .ok [] from rfl]
    simp only [Except.bind]
    rw [closureLoop]
    simp [closureLoop, addComps, fontC1]
  rw [hfg]
  simp only [Except.bind]
  rw [hsl]
  simp only [Except.bind]
  have hw : compute_widths fontC1.widths [0] = .ok [10] := rfl
  rw [hw]
  exact ⟨_, rfl⟩

/-- C1: the output records are appended in caller-request order — `run`
performs no sort.  Requesting `name` before `head` (both present in the
input) succeeds and leaves the records in the order `[name, head]`, which is
not ascending bytewise, although the reversed request order would be. -/
theorem c1_records_in_request_order :
    (runLoop fontC1 [] [0] ⟨[], []⟩ [nameTag, headTag]).map
      (fun s => s.records.map (fun r => r.tag)) = .ok [nameTag, headTag] ∧
    tagsSorted [nameTag, headTag] = false ∧
    tagsSorted [headTag, nameTag] = true ∧
    (∃ out, run fontC1 [] [nameTag, headTag] = .ok out) := by
  refine ⟨rfl, rfl, rfl, run_fontC1_ok _ ⟨_, rfl⟩⟩

theorem subset_table_unrecognized (f : FontModel) (chars glyphs : List Nat)
    (s : SubState) (t : List Nat) (h : t ∉ recognizedTags) :
    subset_table f chars glyphs s t = .error (.UnsupportedTable t) := by
  unfold subset_table
  rw [if_neg (fun hm => h (List.mem_append_left _ hm))]
  rw [if_neg (fun heq => h (by rw [heq]; simp [recognizedTags]))]
  rw [if_neg (fun heq => h (by rw [heq]; simp [recognizedTags]))]
  rw [if_neg (fun heq => h (by rw [heq]; simp [recognizedTags]))]
  rw [if_neg (fun heq => h (by rw [heq]; simp [recognizedTags]))]
  rw [if_neg (fun heq => h (by rw [heq]; simp [recognizedTags]))]
  rw [if_neg (fun heq => h (by rw [heq]; simp [recognizedTags]))]

/-- C2 (amended): a requested tag that parses as a valid 4-byte ASCII tag
but is not recognized fails with `UnsupportedTable` exactly when the input
directory **contains** it; any tag absent from the directory — recognized or
not — is silently skipped; and a tag that does not parse always fails with
`UnsupportedTable`. -/
theorem c2_dispatch (f : FontModel) (chars glyphs : List Nat) (s : SubState)
    (rest : List (List Nat)) (t : List Nat) :
    (parseTag t = some t → t ∉ recognizedTags → contains_table f t = true →
      runLoop f chars glyphs s (t :: rest) = .error (.UnsupportedTable t)) ∧
    (parseTag t = some t → contains_table f t = false →
      runLoop f chars glyphs s (t :: rest) = runLoop f chars glyphs s rest) ∧
    (parseTag t = none →
      runLoop f chars glyphs s (t :: rest) = .error (.UnsupportedTable t)) := by
  refine ⟨?_, ?_, ?_⟩
  · intro hp hu hc
    simp only [runLoop, hp, hc]
    simp only [if_true]
    rw [subset_table_unrecognized f chars glyphs s t hu]
    rfl
  · intro hp hc
    simp only [runLoop, hp, hc]
    simp
  · intro hp
    simp only [runLoop, hp]

/-- Witness for C2 (amended): `DSIG` parses but is unrecognized; on a font
whose directory has a `DSIG` table the run fails with
`UnsupportedTable("DSIG")`, and on a font without one the request is
skipped. -/
theorem c2_witness :
    runLoop fontC2 [] [0] ⟨[], []⟩ [dsigTag] =
      .error (.UnsupportedTable dsigTag) ∧
    runLoop fontC1 [] [0] ⟨[], []⟩ [dsigTag] = .ok ⟨[], []⟩ :=
  ⟨(c2_dispatch fontC2 [] [0] ⟨[], []⟩ [] dsigTag).1 (by decide) (by decide)
      (by decide),
   ((c2_dispatch fontC1 [] [0] ⟨[], []⟩ [] dsigTag).2.1 (by decide)
      (by decide)).trans rfl⟩

/-- Counterexample for C2 as stated: requesting `DSIG` on a font whose
directory has no `DSIG` table does **not** fail — the whole run succeeds. -/
theorem c2_counterexample : ∃ out, run fontC1 [] [dsigTag] = .ok out :=
  run_fontC1_ok _ ⟨_, rfl⟩

/-! ## C4 — the glyph closure -/

theorem mem_addComps_left {x : Nat} (gs cs : List Nat) (h : x ∈ gs) :
    x ∈ addComps gs cs := by
  obtain ⟨d, hd⟩ := addComps_append gs cs
  rw [hd]
  exact List.mem_append_left _ h

theorem mem_addComps_right {x : Nat} (gs cs : List Nat) (h : x ∈ cs) :
    x ∈ addComps gs cs := by
  induction cs generalizing gs with
  | nil => simp at h
  | cons c cs ih =>
    simp only [addComps, List.foldl_cons]
    rcases List.mem_cons.mp h with hx | hx
    · subst hx
      by_cases hc : gs.all (fun y => y ≠ x)
      · simp only [hc, if_pos]
        exact mem_addComps_left _ _ (by simp)
      · simp only [hc, if_neg]
        simp only [List.all_eq_true, decide_eq_true_eq] at hc
        push_neg at hc
        obtain ⟨y, hy, hyc⟩ := hc
        subst hyc
        exact mem_addComps_left _ _ hy
    · by_cases hc : gs.all (fun y => y ≠ c)
      · simp only [hc, if_pos]; exact ih _ hx
      · simp only [hc, if_neg]; exact ih _ hx

theorem closureLoop_append (t : List GlyphEntry) (gs : List Nat) (i : Nat) :
    ∀ out, closureLoop t gs i = .ok out → ∃ d, out = gs ++ d := by
  induction gs, i using closureLoop.induct t with
  | case1 gs i h hm =>
    intro out hout
    rw [closureLoop, dif_pos h] at hout
    split at hout
    · cases hout
    · rename_i e' heq
      rw [hm] at heq
      cases heq
  | case2 gs i h e hm ih =>
    intro out hout
    rw [closureLoop, dif_pos h] at hout
    split at hout
    · cases hout
    · rename_i e' heq
      rw [hm] at heq
      cases heq
      obtain ⟨d2, hd2⟩ := ih out hout
      obtain ⟨d1, hd1⟩ := addComps_append gs e.composites
      exact ⟨d1 ++ d2, by rw [hd2, hd1, List.append_assoc]⟩
  | case3 gs i h =>
    intro out hout
    rw [closureLoop, dif_neg h] at hout
    cases hout
    exact ⟨[], by simp⟩

/-- The work-list invariant: once the cursor has passed every index, every
glyph in the final vector has its composites inside the vector. -/
theorem closureLoop_closed (t : List GlyphEntry) (gs : List Nat) (i : Nat) :
    ∀ out, closureLoop t gs i = .ok out →
      (∀ j, j < i → j < gs.length → ∀ e, t.get? (gs.getD j 0) = some e →
        ∀ c ∈ e.composites, c ∈ gs) →
      ∀ g ∈ out, ∀ e, t.get? g = some e → ∀ c ∈ e.composites, c ∈ out := by
  induction gs, i using closureLoop.induct t with
  | case1 gs i h hm =>
    intro out hout
    rw [closureLoop, dif_pos h] at hout
    split at hout
    · cases hout
    · rename_i e' heq
      rw [hm] at heq
      cases heq
  | case2 gs i h e hm ih =>
    intro out hout hinv
    rw [closureLoop, dif_pos h] at hout
    split at hout
    · cases hout
    · rename_i e' heq
      rw [hm] at heq
      cases heq
      apply ih out hout
      intro j hj hjlen e2 hget c hc
      obtain ⟨d1, hd1⟩ := addComps_append gs e.composites
      rcases Nat.lt_or_ge j i with hji | hji
      · have hjg : j < gs.length := Nat.lt_trans hji h
        have hgd : (addComps gs e.composites).getD j 0 = gs.getD j 0 := by
          rw [hd1, List.getD_append _ _ _ _ hjg]
        rw [hgd] at hget
        have hcin := hinv j hji hjg e2 hget c hc
        exact mem_addComps_left _ _ hcin
      · have hjeq : j = i := by omega
        subst hjeq
        have hgd : (addComps gs e.composites).getD j 0 = gs.getD j 0 := by
          rw [hd1, List.getD_append _ _ _ _ h]
        rw [hgd] at hget
        rw [List.getD_eq_get _ _ h, hm] at hget
        cases hget
        exact mem_addComps_right _ _ hc
  | case3 gs i h =>
    intro out hout hinv
    rw [closureLoop, dif_neg h] at hout
    cases hout
    intro g hg e hget c hc
    obtain ⟨j, hj, hval⟩ := List.mem_iff_getElem.mp hg
    have hgd : gs.getD j 0 = g := by
      rw [List.getD_eq_getElem _ _ hj, hval]
    exact hinv j (by omega) hj e (hgd ▸ hget) c hc

theorem count_append_fresh (gs : List Nat) (c : Nat) (hc : c ∉ gs) (b : Nat)
    (hinv : ∀ j, b ≤ j → j < gs.length → gs.count (gs.getD j 0) = 1) :
    ∀ j, b ≤ j → j < (gs ++ [c]).length →
      (gs ++ [c]).count ((gs ++ [c]).getD j 0) = 1 := by
  intro j hbj hj
  simp only [List.length_append, List.length_singleton] at hj
  rcases Nat.lt_or_ge j gs.length with hjl | hjl
  · rw [List.getD_append _ _ _ _ hjl, List.count_append]
    have hmem : gs.getD j 0 ∈ gs := by
      rw [List.getD_eq_getElem _ _ hjl]
      exact List.getElem_mem _
    have hne : gs.getD j 0 ≠ c := fun hcc => hc (hcc ▸ hmem)
    have hzero : ([c] : List Nat).count (gs.getD j 0) = 0 :=
      List.count_eq_zero_of_not_mem
        (fun hmm => hne (List.mem_singleton.mp hmm))
    rw [hzero, hinv j hbj hjl]
  · have hje : j = gs.length := by omega
    subst hje
    rw [List.getD_append_right _ _ _ _ le_rfl]
    simp only [Nat.sub_self, List.getD_cons_zero]
    rw [List.count_append, List.count_eq_zero_of_not_mem hc]
    simp

theorem addComps_count (cs : List Nat) : ∀ (gs : List Nat) (b : Nat),
    (∀ j, b ≤ j → j < gs.length → gs.count (gs.getD j 0) = 1) →
    ∀ j, b ≤ j → j < (addComps gs cs).length →
      (addComps gs cs).count ((addComps gs cs).getD j 0) = 1 := by
  induction cs with
  | nil =>
    intro gs b hinv
    rw [show addComps gs [] = gs from rfl]
    exact hinv
  | cons c cs ih =>
    intro gs b hinv
    simp only [addComps, List.foldl_cons]
    by_cases hc : gs.all (fun x => x ≠ c)
    · simp only [hc, if_pos]
      apply ih (gs ++ [c]) b
      apply count_append_fresh gs c _ b hinv
      intro hmem
      have := List.all_eq_true.mp hc c hmem
      simp at this
    · simp only [hc, if_neg]
      exact ih gs b hinv

theorem closureLoop_uniqPast (t : List GlyphEntry) (b : Nat) (gs : List Nat)
    (i : Nat) :
    ∀ out, closureLoop t gs i = .ok out →
      (∀ j, b ≤ j → j < gs.length → gs.count (gs.getD j 0) = 1) →
      ∀ j, b ≤ j → j < out.length → out.count (out.getD j 0) = 1 := by
  induction gs, i using closureLoop.induct t with
  | case1 gs i h hm =>
    intro out hout
    rw [closureLoop, dif_pos h] at hout
    split at hout
    · cases hout
    · rename_i e' heq
      rw [hm] at heq
      cases heq
  | case2 gs i h e hm ih =>
    intro out hout hinv
    rw [closureLoop, dif_pos h] at hout
    split at hout
    · cases hout
    · rename_i e' heq
      rw [hm] at heq
      cases heq
      exact ih out hout (addComps_count e.composites gs b hinv)
  | case3 gs i h =>
    intro out hout hinv
    rw [closureLoop, dif_neg h] at hout
    cases hout
    exact hinv

theorem mapChars_ok (cm : Nat → Option Nat) :
    ∀ chars mapped, mapChars cm chars = .ok mapped →
      mapped.length = chars.length ∧
      ∀ i, i < chars.length →
        ∃ g, cm (chars.getD i 0) = some g ∧ mapped.getD i 0 = g := by
  intro chars
  induction chars with
  | nil =>
    intro mapped h
    simp only [mapChars] at h
    cases h
    exact ⟨rfl, fun i hi => absurd hi (by simp)⟩
  | cons c rest ih =>
    intro mapped h
    simp only [mapChars] at h
    cases hcm : cm c with
    | none => rw [hcm] at h; cases h
    | some g =>
      rw [hcm] at h
      cases hmr : mapChars cm rest with
      | error e => rw [hmr] at h; cases h
      | ok ms =>
        rw [hmr] at h
        simp only [Except.map] at h
        cases h
        obtain ⟨hlen, hpt⟩ := ih ms hmr
        refine ⟨by simp [hlen], ?_⟩
        intro i hi
        cases i with
        | zero => exact ⟨g, by simpa using hcm, rfl⟩
        | succ i =>
          simp only [List.getD_cons_succ]
          exact hpt i (by simpa using hi)

theorem mapChars_err (cm : Nat → Option Nat) :
    ∀ chars, (∃ c ∈ chars, cm c = none) →
      ∃ c, c ∈ chars ∧ cm c = none ∧
        mapChars cm chars = .error (.MissingCharacter c) := by
  intro chars
  induction chars with
  | nil => intro h; simp at h
  | cons c rest ih =>
    intro h
    cases hcm : cm c with
    | none => exact ⟨c, List.mem_cons_self _ _, hcm, by simp [mapChars, hcm]⟩
    | some g =>
      obtain ⟨c', hc'mem, hc'none⟩ := h
      have hc'rest : c' ∈ rest := by
        rcases List.mem_cons.mp hc'mem with hx | hx
        · subst hx; rw [hcm] at hc'none; cases hc'none
        · exact hx
      obtain ⟨c2, h1, h2, h3⟩ := ih ⟨c', hc'rest, hc'none⟩
      exact ⟨c2, List.mem_cons_of_mem _ h1, h2, by simp [mapChars, hcm, h3, Except.map]⟩

theorem addComps_mem_or (gs cs : List Nat) (x : Nat) (h : x ∈ addComps gs cs) :
    x ∈ gs ∨ x ∈ cs := by
  obtain ⟨d, hd⟩ := addComps_append gs cs
  rw [hd] at h
  rcases List.mem_append.mp h with h | h
  · exact Or.inl h
  · exact Or.inr (addComps_fresh gs cs d hd x h).1

/-- Every element of the closed vector is either a seed element or a
composite id mentioned in the `glyf` table. -/
theorem closureLoop_subset (t : List GlyphEntry) (gs : List Nat) (i : Nat) :
    ∀ out, closureLoop t gs i = .ok out →
      ∀ x ∈ out, x ∈ gs ∨ x ∈ compsUniverse t := by
  induction gs, i using closureLoop.induct t with
  | case1 gs i h hm =>
    intro out hout
    rw [closureLoop, dif_pos h] at hout
    split at hout
    · cases hout
    · rename_i e' heq
      rw [hm] at heq
      cases heq
  | case2 gs i h e hm ih =>
    intro out hout
    rw [closureLoop, dif_pos h] at hout
    split at hout
    · cases hout
    · rename_i e' heq
      rw [hm] at heq
      cases heq
      intro x hx
      rcases ih out hout x hx with hmem | hu
      · rcases addComps_mem_or gs e.composites x hmem with hg | hcs
        · exact Or.inl hg
        · right
          simp only [compsUniverse, List.mem_toFinset, List.mem_flatMap]
          exact ⟨e, List.get?_mem hm, hcs⟩
      · exact Or.inr hu
  | case3 gs i h =>
    intro out hout
    rw [closureLoop, dif_neg h] at hout
    cases hout
    exact fun x hx => Or.inl hx

/-- C4: when the glyph-closure stage succeeds — on inputs whose seed plus
all composite ids of the font stay below `2 ^ 16` vector entries, the range
where the source's `u16` work-list cursor and its `len as u16` comparison
are lossless — position 0 holds the default glyph, positions
`1..=chars.len()` hold the character map's images of the requested
characters in order, the result is transitively closed under composite
references, nothing past the `1 + chars.len()` prefix is duplicated
anywhere, and the final vector indeed has fewer than `2 ^ 16` entries; an
unmapped requested character makes the stage fail with `MissingCharacter`. -/
theorem c4_glyph_closure (f : FontModel) (chars : List Nat) :
    (∀ out, 1 + chars.length + (compsUniverse f.glyf).card < 65536 →
      find_glyphs f chars = .ok out →
      out.getD 0 0 = f.defaultGlyph ∧
      (∀ i, i < chars.length →
        ∃ g, f.charMap (chars.getD i 0) = some g ∧ out.getD (i + 1) 0 = g) ∧
      (∀ g ∈ out, ∀ e, f.glyf.get? g = some e → ∀ c ∈ e.composites, c ∈ out) ∧
      (∀ j, 1 + chars.length ≤ j → j < out.length →
        out.count (out.getD j 0) = 1) ∧
      out.length < 65536) ∧
    ((∃ c ∈ chars, f.charMap c = none) →
      ∃ c, c ∈ chars ∧ f.charMap c = none ∧
        find_glyphs f chars = .error (.MissingCharacter c)) := by
  constructor
  · intro out hbound hout
    unfold find_glyphs at hout
    cases hmc : mapChars f.charMap chars with
    | error e =>
      rw [hmc] at hout
      cases hout
    | ok mapped =>
      rw [hmc] at hout
      simp only [Except.bind] at hout
      obtain ⟨hlen, hpt⟩ := mapChars_ok f.charMap chars mapped hmc
      obtain ⟨d, hd⟩ := closureLoop_append f.glyf _ 0 out hout
      have hcons : out = f.defaultGlyph :: (mapped ++ d) := by
        rw [hd]; rfl
      have hgslen : (f.defaultGlyph :: mapped).length = 1 + chars.length := by
        simp only [List.length_cons, hlen]
        omega
      have hlenout : out.length = (f.defaultGlyph :: mapped).length + d.length := by
        rw [hd, List.length_append]
      have huniq : ∀ j, 1 + chars.length ≤ j → j < out.length →
          out.count (out.getD j 0) = 1 := by
        apply closureLoop_uniqPast f.glyf (1 + chars.length) _ 0 out hout
        intro j hbj hjl
        simp only [List.length_cons] at hjl
        omega
      have hcount : ∀ a ∈ d, out.count a = 1 := by
        intro a ha
        obtain ⟨k, hk, hak⟩ := List.mem_iff_getElem.mp ha
        have hgd : out.getD (1 + chars.length + k) 0 = a := by
          rw [hd, List.getD_append_right _ _ _ _ (by omega)]
          have hidx : 1 + chars.length + k - (f.defaultGlyph :: mapped).length =
              k := by omega
          rw [hidx, List.getD_eq_getElem _ _ hk, hak]
        have := huniq (1 + chars.length + k) (by omega) (by omega)
        rw [hgd] at this
        exact this
      have hdU : ∀ a ∈ d, a ∈ compsUniverse f.glyf := by
        intro a ha
        rcases closureLoop_subset f.glyf _ 0 out hout a
            (by rw [hd]; exact List.mem_append_right _ ha) with hga | hu
        · exfalso
          have hc := hcount a ha
          rw [hd, List.count_append] at hc
          have h1 : (f.defaultGlyph :: mapped).count a ≠ 0 :=
            fun h0 => (List.count_eq_zero.mp h0) hga
          have h2 : d.count a ≠ 0 := fun h0 => (List.count_eq_zero.mp h0) ha
          omega
        · exact hu
      have hdN : d.Nodup := by
        rw [List.nodup_iff_count_le_one]
        intro a
        by_cases ha : a ∈ d
        · have hc := hcount a ha
          rw [hd, List.count_append] at hc
          omega
        · rw [List.count_eq_zero.mpr ha]
          omega
      have hdlen : d.length ≤ (compsUniverse f.glyf).card := by
        rw [← List.toFinset_card_of_nodup hdN]
        apply Finset.card_le_card
        intro a ha
        rw [List.mem_toFinset] at ha
        exact hdU a ha
      refine ⟨?_, ?_, ?_, huniq, by omega⟩
      · rw [hcons]; rfl
      · intro i hi
        obtain ⟨g, hg1, hg2⟩ := hpt i hi
        refine ⟨g, hg1, ?_⟩
        rw [hcons]
        simp only [List.getD_cons_succ]
        rw [List.getD_append _ _ _ _ (by omega), hg2]
      · exact closureLoop_closed f.glyf _ 0 out hout (by omega)
  · intro hex
    obtain ⟨c, h1, h2, h3⟩ := mapChars_err f.charMap chars hex
    refine ⟨c, h1, h2, ?_⟩
    unfold find_glyphs
    rw [h3]
    rfl

/-- A small font for the C4 witness: character 97 maps to glyph 1, whose
only composite component is glyph 2. -/
def fontC4 : FontModel where
  program := []
  tables := []
  outlines := .TrueType
  defaultGlyph := 0
  widths := []
  charMap := fun c => if c = 97 then some 1 else none
  glyf := [⟨[]⟩, ⟨[2]⟩, ⟨[]⟩]
  loca := []
  indexToLocFormat := 0
  hmtx := fun _ => none

/-- Witness for C4: on `fontC4` the size hypothesis holds (`1 + 1 + 1 <
2^16`), the closure of `['a']` is `[0, 1, 2]`, the stated invariants hold
there, and an unmapped character fails. -/
theorem c4_witness :
    1 + ([97] : List Nat).length + (compsUniverse fontC4.glyf).card < 65536 ∧
    find_glyphs fontC4 [97] = .ok [0, 1, 2] ∧
    ([0, 1, 2] : List Nat).getD 0 0 = fontC4.defaultGlyph ∧
    (∀ g ∈ ([0, 1, 2] : List Nat), ∀ e, fontC4.glyf.get? g = some e →
      ∀ c ∈ e.composites, c ∈ ([0, 1, 2] : List Nat)) ∧
    ([0, 1, 2] : List Nat).length < 65536 ∧
    find_glyphs fontC4 [98] = .error (.MissingCharacter 98) := by
  have hb : 1 + ([97] : List Nat).length +
      (compsUniverse fontC4.glyf).card < 65536 := by decide
  have heval : find_glyphs fontC4 [97] = .ok [0, 1, 2] := by
    unfold find_glyphs
    rw [show mapChars fontC4.charMap [97] = .ok [1] from rfl]
    simp only [Except.bind]
    rw [closureLoop]
    simp [closureLoop, addComps, fontC4]
  refine ⟨hb, heval, ?_, ?_, ?_, ?_⟩
  · exact ((c4_glyph_closure fontC4 [97]).1 [0, 1, 2] hb heval).1
  · exact ((c4_glyph_closure fontC4 [97]).1 [0, 1, 2] hb heval).2.2.1
  · exact ((c4_glyph_closure fontC4 [97]).1 [0, 1, 2] hb heval).2.2.2.2
  · obtain ⟨c, hcm, hcnone, herr⟩ :=
      (c4_glyph_closure fontC4 [98]).2 ⟨98, by decide, by decide⟩
    have hc98 : c = 98 := by simpa using hcm
    subst hc98
    exact herr

/-! ## C5 — the `glyf` composite rewrite -/

/-- One parsed composite component record: its byte position in the glyph
data, its flag word, and its (old) glyph index. -/
structure CompRec where
  pos : Nat
  flags : Nat
  gi : Nat
  deriving DecidableEq, Repr

/-- Spec-shaped (§4.8): scan the component records of a composite glyph,
collecting position, flags and old glyph index of each record; the loop ends
at the first record whose MORE_COMPONENTS bit (0x20) is clear, and each
continuing record is followed by the variable-length trailer that `skipLen`
measures. -/
def specCompScan (data : List Nat) (pos : Nat) : Except FontError (List CompRec) :=
  match h1 : readU16 data pos with
  | none => .error .Io
  | some flags =>
    match readU16 data (pos + 2) with
    | none => .error .Io
    | some gi =>
      if flags &&& 0x20 = 0 then .ok [⟨pos, flags, gi⟩]
      else (specCompScan data (pos + 4 + skipLen flags)).map
        (fun rs => ⟨pos, flags, gi⟩ :: rs)
termination_by data.length - pos
decreasing_by
  have := readU16_lt data pos flags h1
  omega

/-- Overwrite each scanned component's glyph-index `u16` in place with the
position of its old glyph id in `glyphs`. -/
def rewriteComps (glyphs : List Nat) (data : List Nat) (rs : List CompRec) :
    List Nat :=
  rs.foldl (fun d r =>
    setU16 d (r.pos + 2) ((glyphs.findIdx? (fun g => g = r.gi)).getD 0)) data

theorem readU16_setU16_ge (d : List Nat) (q v p : Nat) (h : q + 2 ≤ p) :
    readU16 (setU16 d q v) p = readU16 d p := by
  unfold readU16 setU16
  rw [List.get?_set_ne _ _ (by omega : q + 1 ≠ p),
    List.get?_set_ne _ _ (by omega : q ≠ p),
    List.get?_set_ne _ _ (by omega : q + 1 ≠ p + 1),
    List.get?_set_ne _ _ (by omega : q ≠ p + 1)]

theorem readU16_setU16_self (d : List Nat) (p v : Nat) (h : p + 1 < d.length) :
    readU16 (setU16 d p v) p = some (v % 65536) := by
  have h1 : (setU16 d p v).get? p = some (v / 256 % 256) := by
    unfold setU16
    rw [List.get?_set_ne _ _ (by omega : p + 1 ≠ p)]
    rw [List.get?_eq_getElem?, List.getElem?_set_eq_of_lt _ (by omega)]
  have h2 : (setU16 d p v).get? (p + 1) = some (v % 256) := by
    unfold setU16
    rw [List.get?_eq_getElem?]
    rw [List.getElem?_set_eq_of_lt _ (by rw [List.length_set]; omega)]
  unfold readU16
  rw [h1, h2]
  show some (v / 256 % 256 * 256 + v % 256) = some (v % 65536)
  congr 1
  omega

theorem scan_none1 (d : List Nat) (pos : Nat) (h : readU16 d pos = none) :
    specCompScan d pos = .error .Io := by
  rw [specCompScan]
  split
  · rfl
  · rename_i flags heq
    rw [h] at heq
    cases heq

theorem scan_none2 (d : List Nat) (pos flags : Nat)
    (h1 : readU16 d pos = some flags) (h2 : readU16 d (pos + 2) = none) :
    specCompScan d pos = .error .Io := by
  rw [specCompScan]
  split
  · rfl
  · rename_i flags' heq
    rw [h1] at heq
    cases heq
    rw [h2]

theorem scan_break (d : List Nat) (pos flags gi : Nat)
    (h1 : readU16 d pos = some flags) (h2 : readU16 d (pos + 2) = some gi)
    (hb : flags &&& 0x20 = 0) :
    specCompScan d pos = .ok [⟨pos, flags, gi⟩] := by
  rw [specCompScan]
  split
  · rename_i heq
    rw [h1] at heq
    cases heq
  · rename_i flags' heq
    rw [h1] at heq
    cases heq
    rw [h2]
    simp only [hb, if_pos]

theorem scan_cont (d : List Nat) (pos flags gi : Nat)
    (h1 : readU16 d pos = some flags) (h2 : readU16 d (pos + 2) = some gi)
    (hb : ¬flags &&& 0x20 = 0) :
    specCompScan d pos = (specCompScan d (pos + 4 + skipLen flags)).map
      (fun rs => ⟨pos, flags, gi⟩ :: rs) := by
  rw [specCompScan]
  split
  · rename_i heq
    rw [h1] at heq
    cases heq
  · rename_i flags' heq
    rw [h1] at heq
    cases heq
    rw [h2]
    simp [hb]

theorem compLoop_none1 (glyphs d : List Nat) (pos : Nat)
    (h : readU16 d pos = none) : compLoop glyphs d pos = .error .Io := by
  rw [compLoop]
  split
  · rfl
  · rename_i flags heq
    rw [h] at heq
    cases heq

theorem compLoop_none2 (glyphs d : List Nat) (pos flags : Nat)
    (h1 : readU16 d pos = some flags) (h2 : readU16 d (pos + 2) = none) :
    compLoop glyphs d pos = .error .Io := by
  rw [compLoop]
  split
  · rfl
  · rename_i flags' heq
    rw [h1] at heq
    cases heq
    rw [h2]

theorem compLoop_nofind (glyphs d : List Nat) (pos flags gi : Nat)
    (h1 : readU16 d pos = some flags) (h2 : readU16 d (pos + 2) = some gi)
    (hf : glyphs.findIdx? (fun g => g = gi) = none) :
    compLoop glyphs d pos = .error (.InvalidFont "invalid composite glyph") := by
  rw [compLoop]
  split
  · rename_i heq
    rw [h1] at heq
    cases heq
  · rename_i flags' heq
    rw [h1] at heq
    cases heq
    rw [h2]
    dsimp only
    rw [hf]

theorem compLoop_break (glyphs d : List Nat) (pos flags gi newGi : Nat)
    (h1 : readU16 d pos = some flags) (h2 : readU16 d (pos + 2) = some gi)
    (hf : glyphs.findIdx? (fun g => g = gi) = some newGi)
    (hb : flags &&& 0x20 = 0) :
    compLoop glyphs d pos = .ok (setU16 d (pos + 2) newGi) := by
  rw [compLoop]
  split
  · rename_i heq
    rw [h1] at heq
    cases heq
  · rename_i flags' heq
    rw [h1] at heq
    cases heq
    rw [h2]
    dsimp only
    rw [hf]
    dsimp only
    rw [if_pos hb]

theorem compLoop_cont (glyphs d : List Nat) (pos flags gi newGi : Nat)
    (h1 : readU16 d pos = some flags) (h2 : readU16 d (pos + 2) = some gi)
    (hf : glyphs.findIdx? (fun g => g = gi) = some newGi)
    (hb : ¬flags &&& 0x20 = 0) :
    compLoop glyphs d pos =
      compLoop glyphs (setU16 d (pos + 2) newGi) (pos + 4 + skipLen flags) := by
  rw [compLoop]
  split
  · rename_i heq
    rw [h1] at heq
    cases heq
  · rename_i flags' heq
    rw [h1] at heq
    cases heq
    rw [h2]
    dsimp only
    rw [hf]
    dsimp only
    rw [if_neg hb]

theorem specCompScan_setU16 (d : List Nat) (q v : Nat) :
    ∀ pos, q + 2 ≤ pos →
      specCompScan (setU16 d q v) pos = specCompScan d pos := by
  intro pos
  induction pos using specCompScan.induct d with
  | case1 pos h1 =>
    intro hq
    rw [scan_none1 d pos h1, scan_none1 (setU16 d q v) pos
      (by rw [readU16_setU16_ge d q v pos hq]; exact h1)]
  | case2 pos flags h1 h2 =>
    intro hq
    rw [scan_none2 d pos flags h1 h2, scan_none2 (setU16 d q v) pos flags
      (by rw [readU16_setU16_ge d q v pos hq]; exact h1)
      (by rw [readU16_setU16_ge d q v (pos + 2) (by omega)]; exact h2)]
  | case3 pos flags h1 gi h2 hbit =>
    intro hq
    rw [scan_break d pos flags gi h1 h2 hbit, scan_break (setU16 d q v) pos
      flags gi
      (by rw [readU16_setU16_ge d q v pos hq]; exact h1)
      (by rw [readU16_setU16_ge d q v (pos + 2) (by omega)]; exact h2) hbit]
  | case4 pos flags h1 gi h2 hbit ih =>
    intro hq
    rw [scan_cont d pos flags gi h1 h2 hbit, scan_cont (setU16 d q v) pos
      flags gi
      (by rw [readU16_setU16_ge d q v pos hq]; exact h1)
      (by rw [readU16_setU16_ge d q v (pos + 2) (by omega)]; exact h2) hbit]
    rw [ih (by omega)]

theorem rewriteComps_cons (glyphs data : List Nat) (r : CompRec)
    (rs : List CompRec) :
    rewriteComps glyphs data (r :: rs) =
      rewriteComps glyphs
        (setU16 data (r.pos + 2) ((glyphs.findIdx? (fun g => g = r.gi)).getD 0))
        rs := rfl

/-- The component loop agrees with the spec-shaped scan-and-rewrite: it
succeeds exactly on scannable data whose every old glyph index occurs in
`glyphs`, producing the in-place rewrite, and a scanned component whose
glyph index is absent makes it fail with `InvalidFont`. -/
theorem compLoop_spec (glyphs : List Nat) : ∀ (data : List Nat) (pos : Nat),
    (∀ d', compLoop glyphs data pos = .ok d' →
      ∃ rs, specCompScan data pos = .ok rs ∧
        (∀ r ∈ rs, (glyphs.findIdx? (fun g => g = r.gi)).isSome = true) ∧
        d' = rewriteComps glyphs data rs) ∧
    (∀ rs, specCompScan data pos = .ok rs →
      (∀ r ∈ rs, (glyphs.findIdx? (fun g => g = r.gi)).isSome = true) →
      compLoop glyphs data pos = .ok (rewriteComps glyphs data rs)) ∧
    (∀ rs, specCompScan data pos = .ok rs →
      (∃ r ∈ rs, glyphs.findIdx? (fun g => g = r.gi) = none) →
      compLoop glyphs data pos = .error (.InvalidFont "invalid composite glyph")) := by
  intro data pos
  induction data, pos using compLoop.induct glyphs with
  | case1 data pos h1 =>
    refine ⟨?_, ?_, ?_⟩
    · intro d' h
      rw [compLoop_none1 glyphs data pos h1] at h
      cases h
    · intro rs hs
      rw [scan_none1 data pos h1] at hs
      cases hs
    · intro rs hs
      rw [scan_none1 data pos h1] at hs
      cases hs
  | case2 data pos flags h1 h2 =>
    refine ⟨?_, ?_, ?_⟩
    · intro d' h
      rw [compLoop_none2 glyphs data pos flags h1 h2] at h
      cases h
    · intro rs hs
      rw [scan_none2 data pos flags h1 h2] at hs
      cases hs
    · intro rs hs
      rw [scan_none2 data pos flags h1 h2] at hs
      cases hs
  | case3 data pos flags h1 gi h2 hf =>
    refine ⟨?_, ?_, ?_⟩
    · intro d' h
      rw [compLoop_nofind glyphs data pos flags gi h1 h2 hf] at h
      cases h
    · intro rs hs hpres
      by_cases hb : flags &&& 0x20 = 0
      · rw [scan_break data pos flags gi h1 h2 hb] at hs
        cases hs
        have := hpres ⟨pos, flags, gi⟩ (List.mem_singleton_self _)
        rw [hf] at this
        cases this
      · rw [scan_cont data pos flags gi h1 h2 hb] at hs
        cases hscan : specCompScan data (pos + 4 + skipLen flags) with
        | error e => rw [hscan] at hs; cases hs
        | ok rs' =>
          rw [hscan] at hs
          cases hs
          have := hpres ⟨pos, flags, gi⟩ (List.mem_cons_self _ _)
          rw [hf] at this
          cases this
    · intro rs hs hex
      exact compLoop_nofind glyphs data pos flags gi h1 h2 hf
  | case4 data pos flags h1 gi h2 newGi hf hb =>
    refine ⟨?_, ?_, ?_⟩
    · intro d' h
      rw [compLoop_break glyphs data pos flags gi newGi h1 h2 hf hb] at h
      cases h
      refine ⟨[⟨pos, flags, gi⟩], scan_break data pos flags gi h1 h2 hb, ?_, ?_⟩
      · intro r hr
        rw [List.mem_singleton.mp hr, hf]
        rfl
      · rw [rewriteComps_cons]
        show setU16 data (pos + 2) newGi =
          rewriteComps glyphs
            (setU16 data (pos + 2) ((glyphs.findIdx? (fun g => g = gi)).getD 0)) []
        rw [hf]
        rfl
    · intro rs hs hpres
      rw [scan_break data pos flags gi h1 h2 hb] at hs
      cases hs
      rw [compLoop_break glyphs data pos flags gi newGi h1 h2 hf hb]
      rw [rewriteComps_cons]
      show Except.ok (setU16 data (pos + 2) newGi) =
        Except.ok (rewriteComps glyphs
          (setU16 data (pos + 2) ((glyphs.findIdx? (fun g => g = gi)).getD 0)) [])
      rw [hf]
      rfl
    · intro rs hs hex
      rw [scan_break data pos flags gi h1 h2 hb] at hs
      cases hs
      obtain ⟨r, hr, habs⟩ := hex
      rw [List.mem_singleton.mp hr] at habs
      rw [hf] at habs
      cases habs
  | case5 data pos flags h1 gi h2 newGi hf data2 hb ih =>
    have hbridge : specCompScan
        (setU16 data (pos + 2) newGi) (pos + 4 + skipLen flags) =
        specCompScan data (pos + 4 + skipLen flags) :=
      specCompScan_setU16 data (pos + 2) newGi (pos + 4 + skipLen flags)
        (by omega)
    refine ⟨?_, ?_, ?_⟩
    · intro d' h
      rw [compLoop_cont glyphs data pos flags gi newGi h1 h2 hf hb] at h
      obtain ⟨rs', hscan', hpres', hd'⟩ := ih.1 d' h
      rw [hbridge] at hscan'
      refine ⟨⟨pos, flags, gi⟩ :: rs',
        by rw [scan_cont data pos flags gi h1 h2 hb, hscan']; rfl, ?_, ?_⟩
      · intro r hr
        rcases List.mem_cons.mp hr with hr | hr
        · rw [hr, hf]; rfl
        · exact hpres' r hr
      · rw [hd', rewriteComps_cons]
        show rewriteComps glyphs (setU16 data (pos + 2) newGi) rs' =
          rewriteComps glyphs
            (setU16 data (pos + 2) ((glyphs.findIdx? (fun g => g = gi)).getD 0))
            rs'
        rw [hf]
        rfl
    · intro rs hs hpres
      rw [scan_cont data pos flags gi h1 h2 hb] at hs
      cases hscan : specCompScan data (pos + 4 + skipLen flags) with
      | error e => rw [hscan] at hs; cases hs
      | ok rs' =>
        rw [hscan] at hs
        cases hs
        rw [compLoop_cont glyphs data pos flags gi newGi h1 h2 hf hb]
        have := ih.2.1 rs' (by rw [hbridge]; exact hscan)
          (fun r hr => hpres r (List.mem_cons_of_mem _ hr))
        rw [this, rewriteComps_cons]
        show Except.ok (rewriteComps glyphs (setU16 data (pos + 2) newGi) rs') =
          Except.ok (rewriteComps glyphs
            (setU16 data (pos + 2) ((glyphs.findIdx? (fun g => g = gi)).getD 0))
            rs')
        rw [hf]
        rfl
    · intro rs hs hex
      rw [scan_cont data pos flags gi h1 h2 hb] at hs
      cases hscan : specCompScan data (pos + 4 + skipLen flags) with
      | error e => rw [hscan] at hs; cases hs
      | ok rs' =>
        rw [hscan] at hs
        cases hs
        obtain ⟨r, hr, habs⟩ := hex
        rcases List.mem_cons.mp hr with hreq | hrin
        · rw [hreq] at habs
          rw [hf] at habs
          cases habs
        · rw [compLoop_cont glyphs data pos flags gi newGi h1 h2 hf hb]
          exact ih.2.2 rs' (by rw [hbridge]; exact hscan) ⟨r, hrin, habs⟩

theorem specCompScan_lb (d : List Nat) : ∀ pos rs,
    specCompScan d pos = .ok rs →
    ∀ r ∈ rs, pos ≤ r.pos ∧ r.pos + 3 < d.length := by
  intro pos
  induction pos using specCompScan.induct d with
  | case1 pos h1 =>
    intro rs hs
    rw [scan_none1 d pos h1] at hs
    cases hs
  | case2 pos flags h1 h2 =>
    intro rs hs
    rw [scan_none2 d pos flags h1 h2] at hs
    cases hs
  | case3 pos flags h1 gi h2 hbit =>
    intro rs hs
    rw [scan_break d pos flags gi h1 h2 hbit] at hs
    cases hs
    intro r hr
    obtain rfl := List.mem_singleton.mp hr
    have := readU16_lt d (pos + 2) gi h2
    refine ⟨le_rfl, ?_⟩
    show pos + 3 < d.length
    omega
  | case4 pos flags h1 gi h2 hbit ih =>
    intro rs hs
    rw [scan_cont d pos flags gi h1 h2 hbit] at hs
    cases hscan : specCompScan d (pos + 4 + skipLen flags) with
    | error e => rw [hscan] at hs; cases hs
    | ok rs' =>
      rw [hscan] at hs
      cases hs
      intro r hr
      rcases List.mem_cons.mp hr with hr | hr
      · obtain rfl := hr
        have := readU16_lt d (pos + 2) gi h2
        refine ⟨le_rfl, ?_⟩
        show pos + 3 < d.length
        omega
      · have := ih rs' hscan r hr
        exact ⟨by omega, this.2⟩

theorem specCompScan_pairwise (d : List Nat) : ∀ pos rs,
    specCompScan d pos = .ok rs →
    List.Pairwise (fun a b => a.pos + 4 ≤ b.pos) rs := by
  intro pos
  induction pos using specCompScan.induct d with
  | case1 pos h1 =>
    intro rs hs
    rw [scan_none1 d pos h1] at hs
    cases hs
  | case2 pos flags h1 h2 =>
    intro rs hs
    rw [scan_none2 d pos flags h1 h2] at hs
    cases hs
  | case3 pos flags h1 gi h2 hbit =>
    intro rs hs
    rw [scan_break d pos flags gi h1 h2 hbit] at hs
    cases hs
    simp
  | case4 pos flags h1 gi h2 hbit ih =>
    intro rs hs
    rw [scan_cont d pos flags gi h1 h2 hbit] at hs
    cases hscan : specCompScan d (pos + 4 + skipLen flags) with
    | error e => rw [hscan] at hs; cases hs
    | ok rs' =>
      rw [hscan] at hs
      cases hs
      rw [List.pairwise_cons]
      refine ⟨?_, ih rs' hscan⟩
      intro r hr
      have := (specCompScan_lb d (pos + 4 + skipLen flags) rs' hscan r hr).1
      show pos + 4 ≤ r.pos
      omega

theorem get?_setU16_ne (d : List Nat) (p v j : Nat) (h2 : j ≠ p)
    (h3 : j ≠ p + 1) : (setU16 d p v).get? j = d.get? j := by
  unfold setU16
  rw [List.get?_set_ne _ _ (by omega : p + 1 ≠ j),
    List.get?_set_ne _ _ (by omega : p ≠ j)]

theorem rewriteComps_length (glyphs : List Nat) : ∀ (rs : List CompRec)
    (data : List Nat), (rewriteComps glyphs data rs).length = data.length := by
  intro rs
  induction rs with
  | nil => intro data; rfl
  | cons r rs ih =>
    intro data
    rw [rewriteComps_cons, ih, length_setU16]

theorem rewriteComps_untouched (glyphs : List Nat) : ∀ (rs : List CompRec)
    (data : List Nat) (j : Nat),
    (∀ r ∈ rs, j ≠ r.pos + 2 ∧ j ≠ r.pos + 3) →
    (rewriteComps glyphs data rs).get? j = data.get? j := by
  intro rs
  induction rs with
  | nil => intro data j _; rfl
  | cons r rs ih =>
    intro data j hj
    rw [rewriteComps_cons]
    rw [ih _ j (fun r' hr' => hj r' (List.mem_cons_of_mem _ hr'))]
    have := hj r (List.mem_cons_self _ _)
    exact get?_setU16_ne data (r.pos + 2) _ j this.1 (by omega)

theorem readU16_rewriteComps_below (glyphs : List Nat) (rs : List CompRec)
    (data : List Nat) (p : Nat) (h : ∀ r ∈ rs, p + 1 < r.pos + 2) :
    readU16 (rewriteComps glyphs data rs) p = readU16 data p := by
  unfold readU16
  rw [rewriteComps_untouched glyphs rs data p
      (fun r hr => ⟨by have := h r hr; omega, by have := h r hr; omega⟩),
    rewriteComps_untouched glyphs rs data (p + 1)
      (fun r hr => ⟨by have := h r hr; omega, by have := h r hr; omega⟩)]

theorem rewriteComps_read (glyphs : List Nat) : ∀ (rs : List CompRec)
    (data : List Nat),
    List.Pairwise (fun a b => a.pos + 4 ≤ b.pos) rs →
    (∀ r ∈ rs, r.pos + 3 < data.length) →
    ∀ r ∈ rs, readU16 (rewriteComps glyphs data rs) (r.pos + 2) =
      some (((glyphs.findIdx? (fun g2 => g2 = r.gi)).getD 0) % 65536) := by
  intro rs
  induction rs with
  | nil => intro data _ _ r hr; simp at hr
  | cons r0 rs ih =>
    intro data hpw hbound r hr
    rw [List.pairwise_cons] at hpw
    rcases List.mem_cons.mp hr with hreq | hrin
    · subst hreq
      rw [rewriteComps_cons]
      rw [readU16_rewriteComps_below glyphs rs _ (r.pos + 2)
        (fun r' hr' => by have := hpw.1 r' hr'; omega)]
      exact readU16_setU16_self data (r.pos + 2) _
        (by have := hbound r (List.mem_cons_self _ _); omega)
    · rw [rewriteComps_cons]
      apply ih _ hpw.2
        (fun r' hr' => by
          rw [length_setU16]
          exact hbound r' (List.mem_cons_of_mem _ hr'))
        r hrin

theorem glyfGlyph_empty (glyphs loca glyfData : List Nat) (g a : Nat)
    (h1 : locaOffset loca g = some a) (h2 : locaOffset loca (g + 1) = some a) :
    glyfGlyph glyphs loca glyfData g = .ok [] := by
  unfold glyfGlyph
  rw [h1, h2]
  dsimp only
  rw [if_pos rfl]

theorem glyfGlyph_simple (glyphs loca glyfData : List Nat) (g a b n : Nat)
    (h1 : locaOffset loca g = some a) (h2 : locaOffset loca (g + 1) = some b)
    (hne : b ≠ a) (hab : a ≤ b) (hblen : b ≤ glyfData.length)
    (hn : readU16 ((glyfData.drop a).take (b - a)) 0 = some n)
    (hlt : n < 0x8000) :
    glyfGlyph glyphs loca glyfData g = .ok ((glyfData.drop a).take (b - a)) := by
  unfold glyfGlyph
  rw [h1, h2]
  dsimp only
  rw [if_neg hne, if_pos ⟨hab, hblen⟩, hn]
  dsimp only
  rw [if_pos hlt]

theorem glyfGlyph_composite (glyphs loca glyfData : List Nat) (g a b n : Nat)
    (h1 : locaOffset loca g = some a) (h2 : locaOffset loca (g + 1) = some b)
    (hne : b ≠ a) (hab : a ≤ b) (hblen : b ≤ glyfData.length)
    (hn : readU16 ((glyfData.drop a).take (b - a)) 0 = some n)
    (hge : ¬n < 0x8000) :
    glyfGlyph glyphs loca glyfData g =
      compLoop glyphs ((glyfData.drop a).take (b - a)) 10 := by
  unfold glyfGlyph
  rw [h1, h2]
  dsimp only
  rw [if_neg hne, if_pos ⟨hab, hblen⟩, hn]
  dsimp only
  rw [if_neg hge]

theorem glyfBody_flatten (glyphs loca glyfData : List Nat) : ∀ gs B,
    glyfBody glyphs loca glyfData gs = .ok B →
    ∃ parts : List (List Nat), parts.length = gs.length ∧
      (∀ k, k < gs.length →
        glyfGlyph glyphs loca glyfData (gs.getD k 0) = .ok (parts.getD k [])) ∧
      B = parts.flatten := by
  intro gs
  induction gs with
  | nil =>
    intro B h
    cases h
    exact ⟨[], rfl, fun k hk => absurd hk (by simp), rfl⟩
  | cons g rest ih =>
    intro B h
    simp only [glyfBody] at h
    cases hg : glyfGlyph glyphs loca glyfData g with
    | error e => rw [hg] at h; cases h
    | ok bs =>
      rw [hg] at h
      simp only [Except.bind] at h
      cases hrest : glyfBody glyphs loca glyfData rest with
      | error e => rw [hrest] at h; cases h
      | ok bs2 =>
        rw [hrest] at h
        simp only [Except.map] at h
        cases h
        obtain ⟨parts, hl, hpt, hfl⟩ := ih bs2 hrest
        refine ⟨bs :: parts, by simp [hl], ?_, by simp [hfl]⟩
        intro k hk
        cases k with
        | zero => simpa using hg
        | succ k =>
          simp only [List.getD_cons_succ]
          exact hpt k (by simpa using hk)

/-- C5: the `glyf` rewrite.  Per glyph: an empty `loca` range contributes
nothing; a simple glyph (`numberOfContours ≥ 0`, i.e. the leading `i16` is
non-negative) is copied byte-for-byte; a composite glyph is handed to the
component loop, which succeeds exactly on data whose scanned component
records (flag-directed trailer skips, loop ending when bit 0x20 is clear)
all carry glyph indices occurring in `glyphs`, overwriting precisely the two
glyph-index bytes of each record with the component's position in `glyphs`
and preserving every other byte; an unmatched index fails with
`InvalidFont "invalid composite glyph"`; and the table body is the in-order
concatenation of the per-glyph contributions. -/
theorem c5_glyf_rewrite (glyphs loca glyfData : List Nat) :
    (∀ g a, locaOffset loca g = some a → locaOffset loca (g + 1) = some a →
      glyfGlyph glyphs loca glyfData g = .ok []) ∧
    (∀ g a b n, locaOffset loca g = some a →
      locaOffset loca (g + 1) = some b → b ≠ a → a ≤ b →
      b ≤ glyfData.length →
      readU16 ((glyfData.drop a).take (b - a)) 0 = some n → n < 0x8000 →
      glyfGlyph glyphs loca glyfData g =
        .ok ((glyfData.drop a).take (b - a))) ∧
    (∀ g a b n, locaOffset loca g = some a →
      locaOffset loca (g + 1) = some b → b ≠ a → a ≤ b →
      b ≤ glyfData.length →
      readU16 ((glyfData.drop a).take (b - a)) 0 = some n → ¬n < 0x8000 →
      glyfGlyph glyphs loca glyfData g =
        compLoop glyphs ((glyfData.drop a).take (b - a)) 10) ∧
    (∀ data pos d', compLoop glyphs data pos = .ok d' ↔
      ∃ rs, specCompScan data pos = .ok rs ∧
        (∀ r ∈ rs, (glyphs.findIdx? (fun g2 => g2 = r.gi)).isSome = true) ∧
        d' = rewriteComps glyphs data rs) ∧
    (∀ data pos rs, specCompScan data pos = .ok rs →
      (∃ r ∈ rs, glyphs.findIdx? (fun g2 => g2 = r.gi) = none) →
      compLoop glyphs data pos =
        .error (.InvalidFont "invalid composite glyph")) ∧
    (∀ (data : List Nat) (rs : List CompRec),
      (rewriteComps glyphs data rs).length = data.length) ∧
    (∀ (data : List Nat) (rs : List CompRec) (j : Nat),
      (∀ r ∈ rs, j ≠ r.pos + 2 ∧ j ≠ r.pos + 3) →
      (rewriteComps glyphs data rs).get? j = data.get? j) ∧
    (∀ data pos rs, specCompScan data pos = .ok rs → ∀ r ∈ rs,
      readU16 (rewriteComps glyphs data rs) (r.pos + 2) =
        some (((glyphs.findIdx? (fun g2 => g2 = r.gi)).getD 0) % 65536)) ∧
    (∀ gs B, glyfBody glyphs loca glyfData gs = .ok B →
      ∃ parts : List (List Nat), parts.length = gs.length ∧
        (∀ k, k < gs.length →
          glyfGlyph glyphs loca glyfData (gs.getD k 0) =
            .ok (parts.getD k [])) ∧
        B = parts.flatten) := by
  refine ⟨glyfGlyph_empty glyphs loca glyfData,
    glyfGlyph_simple glyphs loca glyfData,
    glyfGlyph_composite glyphs loca glyfData, ?_, ?_, ?_, ?_, ?_,
    glyfBody_flatten glyphs loca glyfData⟩
  · intro data pos d'
    constructor
    · exact (compLoop_spec glyphs data pos).1 d'
    · rintro ⟨rs, hs, hpres, rfl⟩
      exact (compLoop_spec glyphs data pos).2.1 rs hs hpres
  · intro data pos rs hs hex
    exact (compLoop_spec glyphs data pos).2.2 rs hs hex
  · intro data rs
    exact rewriteComps_length glyphs rs data
  · intro data rs j hj
    exact rewriteComps_untouched glyphs rs data j hj
  · intro data pos rs hs r hr
    exact rewriteComps_read glyphs rs data
      (specCompScan_pairwise data pos rs hs)
      (fun r' hr' => (specCompScan_lb data pos rs hs r' hr').2) r hr

/-- A concrete composite glyph for the C5 witness: `numberOfContours = -1`,
an 8-byte bounding box, a first component (flags `0x0021`: word arguments +
more components, old glyph 5, four argument bytes) and a last component
(flags `0`, old glyph 7, trailing argument bytes). -/
def c5data : List Nat :=
  [0xFF, 0xFF, 0, 0, 0, 0, 0, 0, 0, 0,
   0x00, 0x21, 0x00, 0x05, 9, 9, 9, 9,
   0x00, 0x00, 0x00, 0x07, 8, 8]

/-- The `c5data` with its two component glyph indices rewritten to positions 1
and 2 of the kept-glyph vector `[0, 5, 7]`. -/
def c5result : List Nat :=
  [0xFF, 0xFF, 0, 0, 0, 0, 0, 0, 0, 0,
   0x00, 0x21, 0x00, 0x01, 9, 9, 9, 9,
   0x00, 0x00, 0x00, 0x02, 8, 8]

/-- Witness for C5: on the concrete composite glyph the rewrite replaces
exactly the two glyph-index words (5 ↦ position 1, 7 ↦ position 2) and
leaves every other byte unchanged. -/
theorem c5_witness :
    glyfGlyph [0, 5, 7] [0, 24] c5data 0 = .ok c5result ∧
    c5result.length = c5data.length ∧
    readU16 c5result 12 = some 1 ∧
    readU16 c5result 20 = some 2 := by
  have hcomp : glyfGlyph [0, 5, 7] [0, 24] c5data 0 =
      compLoop [0, 5, 7] c5data 10 :=
    (c5_glyf_rewrite [0, 5, 7] [0, 24] c5data).2.2.1 0 0 24 0xFFFF rfl rfl
      (by decide) (by decide) (by decide) rfl (by decide)
  have h1 : compLoop [0, 5, 7] c5data 10 =
      compLoop [0, 5, 7] (setU16 c5data 12 1) 18 :=
    compLoop_cont [0, 5, 7] c5data 10 0x21 5 1 rfl rfl rfl (by decide)
  have h2 : compLoop [0, 5, 7] (setU16 c5data 12 1) 18 = .ok c5result :=
    compLoop_break [0, 5, 7] (setU16 c5data 12 1) 18 0 7 2 rfl rfl rfl
      (by decide)
  exact ⟨hcomp.trans (h1.trans h2), rfl, rfl, rfl⟩

end FontSubset
